import Mathlib

/-!
Shallow embedding of `src/goatools/obo_parser.py` (the goatools OBO file
reader and GO DAG assembler) and proofs about the claims of the
specification.

Modelling conventions:
* Python strings are `String`; file lines are given without their trailing
  newline (the code either slices fixed prefixes of a line or `rstrip`s it,
  so nothing claim-relevant depends on the newline character).
* The dynamic attribute dictionary of a `GOTerm` object is modelled by
  explicit fields: required attributes are plain fields, optional scalar
  attributes live in `scalars`, optional multi-valued attributes in
  `msets`, and the nested `_relationship` / `relationship` attributes in
  `relRaw` / `rel` (an `Option` models `hasattr`).
* Object identity is modelled with an arena: the `GODag` container is an
  arena `List Term` together with an association list
  `List (String × Nat)` mapping identifiers to arena indices; two
  identifiers alias the same object iff they map to the same index.
  Mutation of a shared object is `List.set` at its index.
* Python exceptions are `Except` errors; the structured error type records
  exactly the data the `raise` sites interpolate into their messages.
* Unbounded recursion (`_init_level`, `_init_depth`, `paths_to_top`) is
  modelled with fuel; running out of fuel is the counterpart of
  non-termination / stack overflow and surfaces as an error value.
-/

namespace Goatools

/-- `TypeDef` record (class `TypeDef`, obo_parser.py lines 376-397):
`id`, `name`, `transitive_over` and `inverse_of`, all initialised empty. -/
structure TypeDef where
  id : String := ""
  name : String := ""
  transitive_over : List String := []
  inverse_of : String := ""
deriving DecidableEq

/-- `GOTerm` record (class `GOTerm`, obo_parser.py lines 240-255) plus the
dynamically-created optional attributes.  `parentsRaw` is `_parents` (raw
is_a identifier strings), `parents`/`children` are the resolved arena
indices, `relRaw` is the `_relationship` attribute and `rel` the
`relationship` attribute (`none` models the attribute being absent).
Optional attribute names that collide with built-in fields are not
modelled. -/
structure Term where
  id : String := ""
  name : String := ""
  nameSpace : String := ""
  parentsRaw : List String := []
  parents : List Nat := []
  children : List Nat := []
  level : Option Nat := none
  depth : Option Nat := none
  is_obsolete : Bool := false
  alt_ids : List String := []
  scalars : List (String × String) := []
  msets : List (String × List String) := []
  relRaw : Option (List (String × List String)) := none
  rel : Option (List (String × List Nat)) := none
deriving DecidableEq

/-- Errors raised while parsing.  `fatal` is `OBOReader._die` (carries the
obo file path, the 0-based line number from `enumerate`, and the message);
`attrAlreadySet` is the bare `raise Exception("ATTR(...) ALREADY SET(...)")`
of `update_rec`, which carries only the attribute name and its current
value; `attrMissing` and `valueUnpack` model the `AttributeError` /
`ValueError` that the corresponding Python lines would raise. -/
inductive PErr where
  | fatal (file : String) (lnum : Nat) (msg : String)
  | attrAlreadySet (name val : String)
  | attrMissing (name : String)
  | valueUnpack (value : String)
deriving DecidableEq

/-- Fold a list through an `Except`-returning step function, stopping at the
first error (the effect of exceptions inside Python's `for` loop). -/
def exceptFoldList {α β ε : Type} (f : β → α → Except ε β) : β → List α → Except ε β
  | b, [] => .ok b
  | b, x :: xs =>
    match f b x with
    | .error e => .error e
    | .ok b2 => exceptFoldList f b2 xs

/-- Monadic map over `Except`, stopping at the first error. -/
def exceptMapList {α β ε : Type} (f : α → Except ε β) : List α → Except ε (List β)
  | [] => .ok []
  | x :: xs =>
    match f x with
    | .error e => .error e
    | .ok y =>
      match exceptMapList f xs with
      | .error e => .error e
      | .ok ys => .ok (y :: ys)

/-- `enumerate(fstream)`: pair every element with its 0-based index. -/
def withIdx {α : Type} : Nat → List α → List (Nat × α)
  | _, [] => []
  | n, x :: xs => (n, x) :: withIdx (n + 1) xs

/-- Association-list model of Python `dict` assignment `d[k] = v`: an
existing key keeps its position and gets the new value, a new key is
appended (dict preserves key insertion order). -/
def assocUpd {α : Type} (d : List (String × α)) (k : String) (v : α) : List (String × α) :=
  if d.any (fun kv => kv.1 = k) then
    d.map (fun kv => if kv.1 = k then (k, v) else kv)
  else d ++ [(k, v)]

/-- Association-list model of Python `dict` lookup `d[k]` / `k in d`. -/
def assocFind {α : Type} (d : List (String × α)) (k : String) : Option α :=
  (d.find? (fun kv => kv.1 = k)).map (fun kv => kv.2)

/-- Python `s[0:n]` (code-point slicing), structurally recursive so that
concrete inputs evaluate inside the kernel. -/
def strTake (s : String) (n : Nat) : String :=
  String.mk (s.toList.take n)

/-- Python `str.lower()` (ASCII case folding suffices for the block
headers this is applied to). -/
def strLower (s : String) : String :=
  String.mk (s.toList.map Char.toLower)

/-- Python `str.rstrip()`: drop trailing whitespace. -/
def strRstrip (s : String) : String :=
  String.mk ((s.toList.reverse.dropWhile Char.isWhitespace).reverse)

/-- Python `":" in s`. -/
def strHasChar (s : String) (c : Char) : Bool :=
  s.toList.any (fun d => d = c)

/-- Python `s.split(sep)` for a single-character separator: splits at every
occurrence, keeping empty pieces. -/
def splitChar (c : Char) : List Char → List (List Char)
  | [] => [[]]
  | d :: rest =>
    if d = c then [] :: splitChar c rest
    else
      match splitChar c rest with
      | [] => [[d]]
      | g :: gs => (d :: g) :: gs

/-- `value.split()[0]` on a value that starts with a non-space character:
the first whitespace-delimited token. -/
def firstToken (s : String) : String :=
  String.mk (s.toList.takeWhile (fun c => !c.isWhitespace))

/-- `value.split('!')[0].rstrip()`: strip a trailing `!`-comment. -/
def stripComment (s : String) : String :=
  strRstrip (String.mk (s.toList.takeWhile (fun c => c ≠ '!')))

/-- Whether index `j` is a valid split point for the field-line regex
`^(\S+):\s*(\S.*)$`: a nonempty all-non-whitespace prefix before a colon at
`j`, and at least one non-whitespace character after the colon. -/
def fieldSplitOk (cs : List Char) (j : Nat) : Bool :=
  j != 0 && cs.get? j == some ':' &&
    (cs.take j).all (fun c => !c.isWhitespace) &&
    (cs.drop (j + 1)).any (fun c => !c.isWhitespace)

/-- The split point the greedy `\S+` group chooses: the largest valid one. -/
def fieldSplitPoint (cs : List Char) : Option Nat :=
  ((List.range cs.length).filter (fun j => fieldSplitOk cs j)).max?

/-- `re.match(r'^(\S+):\s*(\S.*)$', line)` on an rstripped line: returns
(field name, field value) on success.  The value starts at the first
non-whitespace character after the colon and runs to the end of the line. -/
def reFieldMatch (line : String) : Option (String × String) :=
  let cs := line.toList
  match fieldSplitPoint cs with
  | none => none
  | some j =>
      some (String.mk (cs.take j),
            String.mk ((cs.drop (j + 1)).dropWhile (fun c => c.isWhitespace)))

/-- `OBOReader.attrs_scalar` (obo_parser.py lines 208-210). -/
def attrs_scalar : List String :=
  ["comment", "defn", "is_class_level", "is_metadata_tag", "is_transitive",
   "transitive_over"]

/-- `OBOReader.attrs_nested` (obo_parser.py line 211). -/
def attrs_nested : List String := ["relationship"]

/-- `_add_nested`'s `value.split('!')[0].rstrip().split(' ')` unpacked into
exactly (typedef, target term); any other arity raises (`ValueError`). -/
def parseNested (value : String) : Except PErr (String × String) :=
  match (splitChar ' ' (stripComment value).toList).map String.mk with
  | [td, tgt] => .ok (td, tgt)
  | _ => .error (.valueUnpack value)

/-- Python `set.add` on the value list of one `msets` key (insertion order
stands in for the unordered set; membership is what matters). -/
def msetAdd (m : List (String × List String)) (k v : String) : List (String × List String) :=
  m.map (fun kv =>
    if kv.1 = k then (kv.1, if v ∈ kv.2 then kv.2 else kv.2 ++ [v]) else kv)

/-- `OBOReader.update_rec` (obo_parser.py lines 137-163).  `hasattr` over the
dynamically-created attributes is membership in `scalars`/`msets`; the
nested attribute is stored under its underscore name `_relationship`, so
`hasattr(rec, "relationship")` is always false during parsing and every
`relationship:` line re-initialises `relRaw` (faithful to the source).  The
branch reaching `attrMissing` is unreachable for the same reason. -/
def update_rec_named (r : Term) (name value : String) : Except PErr Term :=
  if r.scalars.any (fun kv => kv.1 = name) || r.msets.any (fun kv => kv.1 = name) then
    if ¬ (name ∈ attrs_scalar) then
      if ¬ (name ∈ attrs_nested) then
        .ok { r with msets := msetAdd r.msets name value }
      else
        .error (.attrMissing name)
    else
      .error (.attrAlreadySet name ((assocFind r.scalars name).getD ""))
  else
    if name ∈ attrs_scalar then
      .ok { r with scalars := r.scalars ++ [(name, value)] }
    else if ¬ (name ∈ attrs_nested) then
      .ok { r with msets := r.msets ++ [(name, [value])] }
    else
      match parseNested value with
      | .ok (td, tgt) => .ok { r with relRaw := some [(td, [tgt])] }
      | .error e => .error e

/-- Entry point of `update_rec`: the obo field name `def` is renamed to the
legal attribute name `defn` first (obo_parser.py lines 140-141). -/
def update_rec (r : Term) (name0 value : String) : Except PErr Term :=
  update_rec_named r (if name0 = "def" then "defn" else name0) value

/-- `OBOReader._add_to_ref` (obo_parser.py lines 104-135).  The set-once
checks mirror `_chk_none` (a field initialised to `""` may be set once;
field values are never empty because the regex value group starts with
`\S`). -/
def add_to_ref (optional_attrs : List String) (file : String) (r : Term)
    (line : String) (lnum : Nat) : Except PErr Term :=
  match reFieldMatch line with
  | none => .error (.fatal file lnum ("UNEXPECTED FIELD CONTENT: " ++ line ++ "\n"))
  | some (fname, fval) =>
    if fname = "id" then
      if r.id = "" then .ok { r with id := fval }
      else .error (.fatal file lnum "FIELD IS ALREADY INITIALIZED")
    else if fname = "alt_id" then
      .ok { r with alt_ids := r.alt_ids ++ [fval] }
    else if fname = "name" then
      if r.name = "" then .ok { r with name := fval }
      else .error (.fatal file lnum "FIELD IS ALREADY INITIALIZED")
    else if fname = "namespace" then
      if r.nameSpace = "" then .ok { r with nameSpace := fval }
      else .error (.fatal file lnum "FIELD IS ALREADY INITIALIZED")
    else if fname = "is_a" then
      .ok { r with parentsRaw := r.parentsRaw ++ [firstToken fval] }
    else if fname = "is_obsolete" ∧ fval = "true" then
      .ok { r with is_obsolete := true }
    else if fname ∈ optional_attrs then
      update_rec r fname fval
    else
      .ok r

/-- `OBOReader._add_to_typedef` (obo_parser.py lines 165-185). -/
def add_to_typedef (file : String) (td : TypeDef) (line : String) (lnum : Nat) :
    Except PErr TypeDef :=
  match reFieldMatch line with
  | none => .error (.fatal file lnum ("UNEXPECTED FIELD CONTENT: " ++ line ++ "\n"))
  | some (fname, fval0) =>
    let fval := stripComment fval0
    if fname = "id" then
      if td.id = "" then .ok { td with id := fval }
      else .error (.fatal file lnum "FIELD IS ALREADY INITIALIZED")
    else if fname = "name" then
      if td.name = "" then .ok { td with name := fval }
      else .error (.fatal file lnum "FIELD IS ALREADY INITIALIZED")
    else if fname = "transitive_over" then
      .ok { td with transitive_over := td.transitive_over ++ [fval] }
    else if fname = "inverse_of" then
      if td.inverse_of = "" then .ok { td with inverse_of := fval }
      else .error (.fatal file lnum "FIELD IS ALREADY INITIALIZED")
    else
      .ok td

/-- Parser state of `OBOReader.__iter__`: records yielded so far, the open
Term (`rec_curr`), the open typedef (`typedef_curr`) and the typedef table
(`self.typedefs`). -/
structure PState where
  out : List Term := []
  recCurr : Option Term := none
  tdCurr : Option TypeDef := none
  typedefs : List (String × TypeDef) := []
deriving DecidableEq

/-- Initial parser state. -/
def initPState : PState := {}

/-- One iteration of the loop body of `OBOReader.__iter__` (obo_parser.py
lines 54-78).  Note that the `[typedef]` branch faithfully passes `rec_curr`
(not `typedef_curr`) to `_init_typedef`, exactly as source line 61 does.
The version-header bookkeeping (`_init_obo_version`) only records version
strings and is omitted.  The `(none, none)` inner cases are unreachable
because the enclosing guard requires one record to be open. -/
def processLine (optional_attrs : List String) (file : String) (st : PState)
    (nl : Nat × String) : Except PErr PState :=
  let lnum := nl.1
  let line := nl.2
  if strLower (strTake line 6) = "[term]" then
    match st.recCurr with
    | none => .ok { st with recCurr := some {} }
    | some _ => .error (.fatal file lnum "PREVIOUS Term WAS NOT TERMINATED AS EXPECTED")
  else if strLower (strTake line 9) = "[typedef]" then
    match st.recCurr with
    | none => .ok { st with tdCurr := some {} }
    | some _ => .error (.fatal file lnum "PREVIOUS Typedef WAS NOT TERMINATED AS EXPECTED")
  else if st.recCurr.isSome || st.tdCurr.isSome then
    if strHasChar (strRstrip line) ':' then
      match st.recCurr, st.tdCurr with
      | some r, _ =>
          match add_to_ref optional_attrs file r (strRstrip line) lnum with
          | .ok r2 => .ok { st with recCurr := some r2 }
          | .error e => .error e
      | none, some td =>
          match add_to_typedef file td (strRstrip line) lnum with
          | .ok td2 => .ok { st with tdCurr := some td2 }
          | .error e => .error e
      | none, none => .ok st
    else if strRstrip line = "" then
      match st.recCurr, st.tdCurr with
      | some r, _ => .ok { st with out := st.out ++ [r], recCurr := none }
      | none, some td =>
          .ok { st with typedefs := assocUpd st.typedefs td.id td, tdCurr := none }
      | none, none => .ok st
    else
      .error (.fatal file lnum ("UNEXPECTED LINE CONTENT: " ++ strRstrip line))
  else
    .ok st

/-- `OBOReader.__iter__` as a whole (obo_parser.py lines 47-81): fold the
loop body over the enumerated lines, then yield the still-open Term, if any
(lines 80-81); a still-open typedef is not stored.  Returns the sequence of
yielded Term records and the typedef table. -/
def parseOBO (optional_attrs : List String) (file : String) (lines : List String) :
    Except PErr (List Term × List (String × TypeDef)) :=
  match exceptFoldList (processLine optional_attrs file) initPState (withIdx 0 lines) with
  | .error e => .error e
  | .ok st => .ok (st.out ++ st.recCurr.toList, st.typedefs)

/-! ## Graph assembly (`GODag`) -/

/-- Errors of the assembly pass: `keyError` is a Python `KeyError` from
`self[x]` / `self.typedefs[typedef]`, `fuelExhausted` models unbounded
recursion (a cyclic parent chain), `badIndex` an out-of-arena reference
(impossible for arenas built by `buildDict`). -/
inductive PopErr where
  | keyError (k : String)
  | badIndex
  | fuelExhausted
deriving DecidableEq

/-- Record-retention filter of `GODag.load_obo_file` (obo_parser.py line
414): keep a record iff `load_obsolete` or the record is not obsolete. -/
def retainRecs (load_obsolete : Bool) (recs : List Term) : List Term :=
  recs.filter (fun r => load_obsolete || !r.is_obsolete)

/-- Register one retained record in the identifier index (obo_parser.py
lines 415-417): `self[rec.id] = rec` then `self[alt] = rec` for each
alternate identifier; `i` is the record's arena index. -/
def registerRec (d : List (String × Nat)) (i : Nat) (r : Term) : List (String × Nat) :=
  r.alt_ids.foldl (fun acc alt => assocUpd acc alt i) (assocUpd d r.id i)

/-- The identifier index of the `GODag` dict: every retained record indexed
under its primary id and all alternate ids, in yield order. -/
def buildDict (recs : List Term) : List (String × Nat) :=
  (withIdx 0 recs).foldl (fun d kv => registerRec d kv.1 kv.2) []

/-- `dict.values()`: one arena index per key, in key-insertion order (a
record registered under several identifiers appears once per identifier,
exactly as the Python dict yields the same object once per key). -/
def dagValues (d : List (String × Nat)) : List Nat :=
  d.map (fun kv => kv.2)

/-- Keep the first occurrence of each element (stands in for building a
Python `set` from a list; only membership is relevant downstream). -/
def dedupKeepFirst (l : List Nat) : List Nat :=
  l.foldl (fun acc x => if x ∈ acc then acc else acc ++ [x]) []

/-- `[self[x] for x in ...]`: resolve identifier strings through the dict,
raising `KeyError` on a missing identifier. -/
def lookupIds (dict : List (String × Nat)) : List String → Except PopErr (List Nat)
  | [] => .ok []
  | s :: ss =>
    match assocFind dict s with
    | none => .error (.keyError s)
    | some j =>
      match lookupIds dict ss with
      | .error e => .error e
      | .ok js => .ok (j :: js)

/-- Resolve `_relationship` into `relationship` (obo_parser.py lines
458-462): for each typedef key, the target identifiers become a set of
resolved records. -/
def resolveRel (dict : List (String × Nat)) :
    List (String × List String) → Except PopErr (List (String × List Nat))
  | [] => .ok []
  | kv :: rest =>
    match lookupIds dict kv.2 with
    | .error e => .error e
    | .ok js =>
      match resolveRel dict rest with
      | .error e => .error e
      | .ok rs => .ok ((kv.1, dedupKeepFirst js) :: rs)

/-- First pass of `populate_terms` for one record (obo_parser.py lines
455-462): `rec.parents = [self[x] for x in rec._parents]`, and if the record
still has a `_relationship` attribute, resolve it into `relationship` and
delete `_relationship`. -/
def resolveOne (dict : List (String × Nat)) (a : List Term) (i : Nat) :
    Except PopErr (List Term) :=
  match a.get? i with
  | none => .error .badIndex
  | some t =>
    match lookupIds dict t.parentsRaw with
    | .error e => .error e
    | .ok ps =>
      match t.relRaw with
      | none => .ok (a.set i { t with parents := ps })
      | some rmap =>
        match resolveRel dict rmap with
        | .error e => .error e
        | .ok rl => .ok (a.set i { t with parents := ps, relRaw := none, rel := some rl })

/-- `if rec not in parent.children: parent.children.append(rec)`
(obo_parser.py lines 467-468), for child index `c` and parent index `p`. -/
def addChild (a : List Term) (c p : Nat) : List Term :=
  match a.get? p with
  | none => a
  | some pt =>
    if c ∈ pt.children then a
    else a.set p { pt with children := pt.children ++ [c] }

/-- `term.relationship[k].add(v)` on one relationship map, creating the key
if needed (`defaultdict(set)` semantics; list-with-no-duplicate-append
models the set). -/
def relAdd (m : List (String × List Nat)) (k : String) (v : Nat) :
    List (String × List Nat) :=
  if m.any (fun kv => kv.1 = k) then
    m.map (fun kv =>
      if kv.1 = k then (kv.1, if v ∈ kv.2 then kv.2 else kv.2 ++ [v]) else kv)
  else m ++ [(k, [v])]

/-- Add the inverted relationship `k ∋ v` on the record at arena index
`tgt`, creating its `relationship` attribute if absent (obo_parser.py lines
476-479). -/
def relAddAt (a : List Term) (tgt : Nat) (k : String) (v : Nat) : List Term :=
  match a.get? tgt with
  | none => a
  | some t => a.set tgt { t with rel := some (relAdd (t.rel.getD []) k v) }

/-- Relationship inversion for the record at index `i` with relationship
map `rmap` (obo_parser.py lines 471-479): for each typedef key, look the
typedef up (`KeyError` if missing), and if it has a truthy `inverse_of`,
add `i` to every target's map under the inverse name. -/
def invertRel (tds : List (String × TypeDef)) (i : Nat) :
    List (String × List Nat) → List Term → Except PopErr (List Term)
  | [], a => .ok a
  | kv :: rest, a =>
    match assocFind tds kv.1 with
    | none => .error (.keyError kv.1)
    | some tdrec =>
      invertRel tds i rest
        (if tdrec.inverse_of = "" then a
         else kv.2.foldl (fun acc tgt => relAddAt acc tgt tdrec.inverse_of i) a)

/-- One monadic pass over a list of arena indices, threading the arena
(used for the generator arguments of `min(...)`/`max(...)` inside
`_init_level`/`_init_depth`). -/
def metricFold (f : List Term → Nat → Except PopErr (List Term × Nat)) :
    List Term → List Nat → Except PopErr (List Term × List Nat)
  | a, [] => .ok (a, [])
  | a, p :: ps =>
    match f a p with
    | .error e => .error e
    | .ok (a2, v) =>
      match metricFold f a2 ps with
      | .error e => .error e
      | .ok (a3, vs) => .ok (a3, v :: vs)

/-- Memoized `_init_level` (obo_parser.py lines 438-444): an already-set
level is returned as is; a parentless record gets level 0; otherwise the
level is `min` of the recursively computed parent levels plus one, written
back to the record.  Fuel bounds the recursion depth. -/
def init_level : Nat → List Term → Nat → Except PopErr (List Term × Nat)
  | 0, _, _ => .error .fuelExhausted
  | fuel + 1, a, i =>
    match a.get? i with
    | none => .error .badIndex
    | some t =>
      match t.level with
      | some l => .ok (a, l)
      | none =>
        match t.parents with
        | [] => .ok (a.set i { t with level := some 0 }, 0)
        | p :: ps =>
          match init_level fuel a p with
          | .error e => .error e
          | .ok (a2, v) =>
            match metricFold (fun a' q => init_level fuel a' q) a2 ps with
            | .error e => .error e
            | .ok (a3, vs) =>
              .ok (a3.set i { t with level := some (vs.foldl Nat.min v + 1) },
                   vs.foldl Nat.min v + 1)

/-- Memoized `_init_depth` (obo_parser.py lines 446-452): like
`init_level` with `max` in place of `min`. -/
def init_depth : Nat → List Term → Nat → Except PopErr (List Term × Nat)
  | 0, _, _ => .error .fuelExhausted
  | fuel + 1, a, i =>
    match a.get? i with
    | none => .error .badIndex
    | some t =>
      match t.depth with
      | some l => .ok (a, l)
      | none =>
        match t.parents with
        | [] => .ok (a.set i { t with depth := some 0 }, 0)
        | p :: ps =>
          match init_depth fuel a p with
          | .error e => .error e
          | .ok (a2, v) =>
            match metricFold (fun a' q => init_depth fuel a' q) a2 ps with
            | .error e => .error e
            | .ok (a3, vs) =>
              .ok (a3.set i { t with depth := some (vs.foldl Nat.max v + 1) },
                   vs.foldl Nat.max v + 1)

/-- Children loop of the second pass (obo_parser.py lines 466-468): append
record `i` to each of its parents' children lists, skipping parents that
already list it. -/
def phase2Children (a : List Term) (i : Nat) (t : Term) : List Term :=
  t.parents.foldl (fun acc p => addChild acc i p) a

/-- Inversion step of the second pass (obo_parser.py lines 471-479): a
record without a `relationship` attribute is skipped, otherwise its map is
inverted. -/
def phase2Invert (tds : List (String × TypeDef)) (i : Nat) (a1 : List Term)
    (t1 : Term) : Except PopErr (List Term) :=
  match t1.rel with
  | none => .ok a1
  | some rmap => invertRel tds i rmap a1

/-- Level guard of the second pass (obo_parser.py lines 481-482):
`if rec.level is None: _init_level(rec)`. -/
def phase2Level (fuel : Nat) (a2 : List Term) (i : Nat) (t2 : Term) :
    Except PopErr (List Term) :=
  if t2.level = none then
    match init_level fuel a2 i with
    | .error e => .error e
    | .ok (x, _) => .ok x
  else .ok a2

/-- Depth guard of the second pass (obo_parser.py lines 484-485). -/
def phase2Depth (fuel : Nat) (a3 : List Term) (i : Nat) (t3 : Term) :
    Except PopErr (List Term) :=
  if t3.depth = none then
    match init_depth fuel a3 i with
    | .error e => .error e
    | .ok (x, _) => .ok x
  else .ok a3

/-- Second pass of `populate_terms` for one record (obo_parser.py lines
465-485): append the record to each parent's children (if not present),
invert its relationships, then compute level and depth if unset.  The
relationship map is read after the children loop, and the level/depth
guards re-read the live record, mirroring attribute reads on the mutable
Python object. -/
def phase2One (tds : List (String × TypeDef)) (fuel : Nat) (a : List Term) (i : Nat) :
    Except PopErr (List Term) :=
  match a.get? i with
  | none => .error .badIndex
  | some t =>
    match (phase2Children a i t).get? i with
    | none => .error .badIndex
    | some t1 =>
      match phase2Invert tds i (phase2Children a i t) t1 with
      | .error e => .error e
      | .ok a2 =>
        match a2.get? i with
        | none => .error .badIndex
        | some t2 =>
          match phase2Level fuel a2 i t2 with
          | .error e => .error e
          | .ok a3 =>
            match a3.get? i with
            | none => .error .badIndex
            | some t3 => phase2Depth fuel a3 i t3

/-- `GODag.populate_terms` (obo_parser.py lines 435-485): the reference
resolution pass followed by the children/inversion/metric pass, each
iterating over `self.values()` (one index per dict key, in key-insertion
order).  Fuel `a.length + 1` suffices for every acyclic parent relation. -/
def populate_terms (tds : List (String × TypeDef)) (a : List Term)
    (dict : List (String × Nat)) : Except PopErr (List Term) :=
  match exceptFoldList (resolveOne dict) a (dagValues dict) with
  | .error e => .error e
  | .ok a1 => exceptFoldList (phase2One tds (a.length + 1)) a1 (dagValues dict)

/-! ## Pure level/depth recurrences and the query layer -/

/-- Monadic map over `Option`. -/
def optionMapList {α β : Type} (f : α → Option β) : List α → Option (List β)
  | [] => some []
  | x :: xs =>
    match f x with
    | none => none
    | some y =>
      match optionMapList f xs with
      | none => none
      | some ys => some (y :: ys)

/-- The level recurrence exactly as `_init_level` computes it, as a pure
function of the resolved parent graph: 0 at a parentless record, otherwise
1 + the minimum of the parents' levels; `none` when the fuel does not
suffice (cyclic parent chains). -/
def levelF (a : List Term) : Nat → Nat → Option Nat
  | 0, _ => none
  | fuel + 1, i =>
    match a.get? i with
    | none => none
    | some t =>
      match t.parents with
      | [] => some 0
      | p :: ps =>
        match levelF a fuel p with
        | none => none
        | some v =>
          match optionMapList (fun q => levelF a fuel q) ps with
          | none => none
          | some vs => some (vs.foldl Nat.min v + 1)

/-- The depth recurrence exactly as `_init_depth` computes it: `max` in
place of `min`. -/
def depthF (a : List Term) : Nat → Nat → Option Nat
  | 0, _ => none
  | fuel + 1, i =>
    match a.get? i with
    | none => none
    | some t =>
      match t.parents with
      | [] => some 0
      | p :: ps =>
        match depthF a fuel p with
        | none => none
        | some v =>
          match optionMapList (fun q => depthF a fuel q) ps with
          | none => none
          | some vs => some (vs.foldl Nat.max v + 1)

/-- `_paths_to_top_recursive` (obo_parser.py lines 549-558): at a record
whose level equals 0 the only path is the singleton; otherwise every path
to a parent extended with this record, parents in order.  Fuel bounds the
recursion depth. -/
def pathsToTopRec : Nat → List Term → Nat → Except PopErr (List (List Nat))
  | 0, _, _ => .error .fuelExhausted
  | fuel + 1, a, i =>
    match a.get? i with
    | none => .error .badIndex
    | some t =>
      if t.level = some 0 then .ok [[i]]
      else
        match exceptMapList (fun p => pathsToTopRec fuel a p) t.parents with
        | .error e => .error e
        | .ok pss => .ok ((pss.map (fun ps => ps.map (fun tp => tp ++ [i]))).flatten)

/-- `GODag.paths_to_top` (obo_parser.py lines 527-561): `none` when the
identifier is absent from the graph (the Python method prints a notice and
returns `None`), otherwise the recursive path enumeration from the resolved
record. -/
def paths_to_top (a : List Term) (dict : List (String × Nat)) (fuel : Nat)
    (term : String) : Option (Except PopErr (List (List Nat))) :=
  match assocFind dict term with
  | none => none
  | some i => some (pathsToTopRec fuel a i)

/-! ## Generic lemmas about the `Except` folds -/

theorem exceptFoldList_ok_preserve {α β ε : Type} {P : β → Prop}
    (f : β → α → Except ε β) :
    ∀ (l : List α) (b b' : β), exceptFoldList f b l = .ok b' →
      (∀ x ∈ l, ∀ c c', f c x = .ok c' → P c → P c') → P b → P b' := by
  intro l
  induction l with
  | nil =>
    intro b b' h _ hP
    simp only [exceptFoldList] at h
    cases h
    exact hP
  | cons x xs ih =>
    intro b b' h hstep hP
    simp only [exceptFoldList] at h
    cases hfx : f b x with
    | error e => rw [hfx] at h; cases h
    | ok b2 =>
      rw [hfx] at h
      exact ih b2 b' h (fun y hy => hstep y (List.mem_cons_of_mem x hy))
        (hstep x (List.mem_cons_self x xs) b b2 hfx hP)

theorem exceptFoldList_ok_establish {α β ε : Type} {P Q : β → Prop}
    (f : β → α → Except ε β) :
    ∀ (l : List α) (b b' : β), exceptFoldList f b l = .ok b' → ∀ x ∈ l,
      (∀ c c', f c x = .ok c' → Q c → P c') →
      (∀ y ∈ l, ∀ c c', f c y = .ok c' → Q c → Q c') →
      (∀ y ∈ l, ∀ c c', f c y = .ok c' → P c → P c') →
      Q b → P b' := by
  intro l
  induction l with
  | nil => intro b b' _ x hx; cases hx
  | cons y ys ih =>
    intro b b' h x hx hEst hQ hP hQb
    simp only [exceptFoldList] at h
    cases hfy : f b y with
    | error e => rw [hfy] at h; cases h
    | ok b2 =>
      rw [hfy] at h
      rcases List.mem_cons.mp hx with rfl | hx'
      · exact exceptFoldList_ok_preserve f ys b2 b' h
          (fun z hz => hP z (List.mem_cons_of_mem x hz)) (hEst b b2 hfy hQb)
      · exact ih b2 b' h x hx' hEst
          (fun z hz => hQ z (List.mem_cons_of_mem y hz))
          (fun z hz => hP z (List.mem_cons_of_mem y hz))
          (hQ y (List.mem_cons_self y ys) b b2 hfy hQb)

theorem exceptFoldList_withIdx_error {α β ε : Type}
    (f : β → (Nat × α) → Except ε β) :
    ∀ (items : List α) (n : Nat) (b : β) (e : ε),
      exceptFoldList f b (withIdx n items) = .error e →
      ∃ k item c, items.get? k = some item ∧
        exceptFoldList f b (withIdx n (items.take k)) = .ok c ∧
        f c (n + k, item) = .error e := by
  intro items
  induction items with
  | nil => intro n b e h; simp [withIdx, exceptFoldList] at h
  | cons s rest ih =>
    intro n b e h
    simp only [withIdx, exceptFoldList] at h
    cases hfs : f b (n, s) with
    | error e' =>
      rw [hfs] at h
      cases h
      refine ⟨0, s, b, rfl, ?_, ?_⟩
      · simp [withIdx, exceptFoldList]
      · rw [Nat.add_zero]; exact hfs
    | ok b2 =>
      rw [hfs] at h
      obtain ⟨k, item, c, hget, hpre, herr⟩ := ih (n + 1) b2 e h
      refine ⟨k + 1, item, c, hget, ?_, ?_⟩
      · simp only [List.take_succ_cons, withIdx, exceptFoldList, hfs]
        exact hpre
      · have : n + (k + 1) = n + 1 + k := by omega
        rw [this]; exact herr

/-! ## Parser error provenance -/

theorem parseNested_error (v : String) (e : PErr)
    (h : parseNested v = .error e) : e = .valueUnpack v := by
  unfold parseNested at h
  split at h <;> simp_all

/-- `update_rec` never raises through `_die`: its failure modes are the bare
`ATTR ALREADY SET` exception and the (unreachable) attribute/unpack
errors, none of which carries a file path or a line number. -/
theorem update_rec_named_no_fatal (r : Term) (nm v : String) (e : PErr)
    (h : update_rec_named r nm v = .error e) : ∀ f k m, e ≠ .fatal f k m := by
  unfold update_rec_named at h
  split at h
  · split at h
    · split at h
      · cases h
      · cases h; intro f k m hne; cases hne
    · cases h; intro f k m hne; cases hne
  · split at h
    · cases h
    · split at h
      · cases h
      · split at h
        · cases h
        · cases h
          have := parseNested_error _ _ (by assumption)
          subst this; intro f k m hne; cases hne

theorem update_rec_no_fatal (r : Term) (nm v : String) (e : PErr)
    (h : update_rec r nm v = .error e) : ∀ f k m, e ≠ .fatal f k m := by
  unfold update_rec at h
  exact update_rec_named_no_fatal _ _ _ _ h

theorem add_to_ref_fatal (oa : List String) (file : String) (r : Term)
    (line : String) (lnum : Nat) (f' : String) (k : Nat) (m : String)
    (h : add_to_ref oa file r line lnum = .error (.fatal f' k m)) :
    f' = file ∧ k = lnum := by
  unfold add_to_ref at h
  split at h
  · cases h; exact ⟨rfl, rfl⟩
  · split at h
    · split at h
      · cases h
      · cases h; exact ⟨rfl, rfl⟩
    · split at h
      · cases h
      · split at h
        · split at h
          · cases h
          · cases h; exact ⟨rfl, rfl⟩
        · split at h
          · split at h
            · cases h
            · cases h; exact ⟨rfl, rfl⟩
          · split at h
            · cases h
            · split at h
              · cases h
              · split at h
                · exact absurd rfl (update_rec_no_fatal _ _ _ _ h f' k m)
                · cases h

theorem add_to_typedef_fatal (file : String) (td : TypeDef)
    (line : String) (lnum : Nat) (f' : String) (k : Nat) (m : String)
    (h : add_to_typedef file td line lnum = .error (.fatal f' k m)) :
    f' = file ∧ k = lnum := by
  unfold add_to_typedef at h
  split at h
  · cases h; exact ⟨rfl, rfl⟩
  · split at h
    · split at h
      · cases h
      · cases h; exact ⟨rfl, rfl⟩
    · split at h
      · split at h
        · cases h
        · cases h; exact ⟨rfl, rfl⟩
      · split at h
        · cases h
        · split at h
          · split at h
            · cases h
            · cases h; exact ⟨rfl, rfl⟩
          · cases h

/-- Every `_die` error produced while processing a line carries the reader's
file path and that line's 0-based number. -/
theorem processLine_fatal_loc (oa : List String) (file : String) (st : PState)
    (n : Nat) (line : String) (f' : String) (k : Nat) (m : String)
    (h : processLine oa file st (n, line) = .error (.fatal f' k m)) :
    f' = file ∧ k = n := by
  obtain ⟨out, rc, tc, tdtbl⟩ := st
  unfold processLine at h
  cases rc <;> cases tc <;> simp only at h <;> repeat' split at h
  all_goals cases h <;> first
    | exact ⟨rfl, rfl⟩
    | exact add_to_ref_fatal _ _ _ _ _ _ _ _ (by assumption)
    | exact add_to_typedef_fatal _ _ _ _ _ _ _ (by assumption)

/-! ## Claim C6 -/

/-- C6: the claim states that opening a new record while a previous record
of the same kind is still open is always a fatal parse error.  The code
honours this for `[Term]` (first conjunct: the error carries the second
header's line number 2), but source line 61 passes `rec_curr` instead of
`typedef_curr` to `_init_typedef`, so a `[Typedef]` header immediately
following an open `[Typedef]` block does NOT abort: the open typedef is
silently discarded and parsing succeeds with only the second typedef stored
(second conjunct).  This contradicts `_init_typedef`'s own parameter name
and error message, so the code, not the claim, is wrong. -/
theorem c6_second_header_same_kind :
    parseOBO [] "go.obo" ["[Term]", "id: a", "[Term]"] =
      .error (.fatal "go.obo" 2 "PREVIOUS Term WAS NOT TERMINATED AS EXPECTED") ∧
    parseOBO [] "go.obo" ["[Typedef]", "id: a", "[Typedef]", "id: b", ""] =
      .ok ([], [("b", { id := "b" })]) :=
  ⟨rfl, rfl⟩

/-! ## Claim C9 -/

/-- C9 counterexample: with the optional scalar attribute `comment` enabled,
re-setting it aborts parsing with the bare `ATTR ALREADY SET` exception of
`update_rec`, whose payload is only the attribute name and current value —
it carries neither the source file path nor the offending line number,
contrary to the claim. -/
theorem c9_scalar_reinit_error_has_no_location :
    parseOBO ["comment"] "f.obo"
        ["[Term]", "id: GO:1", "comment: x", "comment: y", ""] =
      .error (.attrAlreadySet "comment" "x") :=
  rfl

/-- C9 (amended): whenever parsing aborts with a `_die`-style fatal error —
which includes every re-initialization of a required set-once field (`id`,
`name`, `namespace` of a Term; `id`, `name`, `inverse_of` of a Typedef) —
the error carries the source file path and the 0-based number of the
offending line: the lines before it process cleanly and the line with that
number produces exactly this error.  Re-setting an enabled optional scalar
attribute instead aborts with `attrAlreadySet`, which carries no location
(see the counterexample). -/
theorem c9_fatal_parse_errors_carry_location (oa : List String) (file : String)
    (lines : List String) (f' : String) (k : Nat) (m : String)
    (h : parseOBO oa file lines = .error (.fatal f' k m)) :
    f' = file ∧ ∃ line st, lines.get? k = some line ∧
      exceptFoldList (processLine oa file) initPState (withIdx 0 (lines.take k)) = .ok st ∧
      processLine oa file st (k, line) = .error (.fatal f' k m) := by
  unfold parseOBO at h
  cases hf : exceptFoldList (processLine oa file) initPState (withIdx 0 lines) with
  | ok st => rw [hf] at h; cases h
  | error e =>
    rw [hf] at h
    cases h
    obtain ⟨k0, line, c, hget, hpre, herr⟩ :=
      exceptFoldList_withIdx_error (processLine oa file) lines 0 initPState _ hf
    rw [Nat.zero_add] at herr
    obtain ⟨hfile, hk⟩ := processLine_fatal_loc oa file c k0 line f' k m herr
    subst hfile hk
    exact ⟨rfl, line, c, hget, hpre, herr⟩

/-- Witness for the amended C9 theorem: a `[Term]` whose `id` is set twice
aborts with a fatal error carrying the file path `f.obo` and line number 2,
and line 2 (`id: b`) is indeed the offending line. -/
theorem c9_fatal_parse_errors_carry_location_witness :
    "f.obo" = "f.obo" ∧ ∃ line st,
      (["[Term]", "id: a", "id: b", ""].get? 2 = some line) ∧
      exceptFoldList (processLine [] "f.obo") initPState
        (withIdx 0 (["[Term]", "id: a", "id: b", ""].take 2)) = .ok st ∧
      processLine [] "f.obo" st (2, line) =
        .error (.fatal "f.obo" 2 "FIELD IS ALREADY INITIALIZED") :=
  c9_fatal_parse_errors_carry_location [] "f.obo" ["[Term]", "id: a", "id: b", ""]
    "f.obo" 2 "FIELD IS ALREADY INITIALIZED" rfl

/-! ## Claim C10 -/

/-- C10: if the line fold ends with a typedef still open, `parseOBO` does
not raise: the result is exactly the yielded records (with a still-open Term
appended last) and the already-finalized typedef table — the open typedef is
silently discarded (its identifier is absent from the table if it was not
separately finalized earlier), while a still-open Term is yielded as the
final record. -/
theorem c10_eof_open_typedef_discarded_term_yielded (oa : List String)
    (file : String) (lines : List String) (st : PState) (td : TypeDef)
    (hrun : exceptFoldList (processLine oa file) initPState (withIdx 0 lines) = .ok st)
    (htd : st.tdCurr = some td) :
    parseOBO oa file lines = .ok (st.out ++ st.recCurr.toList, st.typedefs) ∧
    (td.id ∉ st.typedefs.map Prod.fst →
      ∀ recs tbl, parseOBO oa file lines = .ok (recs, tbl) → td.id ∉ tbl.map Prod.fst) ∧
    (∀ r, st.recCurr = some r →
      ∀ recs tbl, parseOBO oa file lines = .ok (recs, tbl) → recs.getLast? = some r) := by
  have hp : parseOBO oa file lines = .ok (st.out ++ st.recCurr.toList, st.typedefs) := by
    unfold parseOBO
    rw [hrun]
  refine ⟨hp, ?_, ?_⟩
  · intro hni recs tbl hps
    rw [hp] at hps
    cases hps
    exact hni
  · intro r hr recs tbl hps
    rw [hp] at hps
    cases hps
    rw [hr]
    simp

/-- Witness for C10: a file whose last blocks are an unterminated
`[Typedef]` and an unterminated `[Term]` parses successfully into just the
open Term, with an empty typedef table. -/
theorem c10_eof_open_typedef_discarded_term_yielded_witness :
    parseOBO [] "f.obo" ["[Typedef]", "id: part_of", "[Term]", "id: GO:9"] =
      .ok ([{ id := "GO:9" }], []) :=
  (c10_eof_open_typedef_discarded_term_yielded [] "f.obo"
    ["[Typedef]", "id: part_of", "[Term]", "id: GO:9"]
    ⟨[], some { id := "GO:9" }, some { id := "part_of" }, []⟩
    { id := "part_of" } rfl rfl).1

/-! ## Claim C4: the identifier index -/

/-- All identifiers a record registers in the `GODag` dict, in registration
order: the primary identifier then the alternate identifiers. -/
def regKeys (r : Term) : List String :=
  r.id :: r.alt_ids

theorem registerRec_eq_foldl (d : List (String × Nat)) (i : Nat) (r : Term) :
    registerRec d i r = (regKeys r).foldl (fun acc k => assocUpd acc k i) d := rfl

theorem assocUpd_of_not_mem {α : Type} (d : List (String × α)) (k : String) (v : α)
    (h : k ∉ d.map Prod.fst) : assocUpd d k v = d ++ [(k, v)] := by
  unfold assocUpd
  rw [if_neg]
  intro hc
  simp only [List.any_eq_true, decide_eq_true_eq] at hc
  obtain ⟨kv, hm, hk⟩ := hc
  exact h (hk ▸ List.mem_map_of_mem Prod.fst hm)

theorem map_fst_keyPair (n : Nat) (ks : List String) :
    (ks.map (fun k => ((k, n) : String × Nat))).map Prod.fst = ks := by
  induction ks with
  | nil => rfl
  | cons k ks ih => simp only [List.map_cons, ih]

theorem foldUpd_of_fresh (i : Nat) :
    ∀ (ks : List String) (d : List (String × Nat)), ks.Nodup →
      (∀ k ∈ ks, k ∉ d.map Prod.fst) →
      ks.foldl (fun acc k => assocUpd acc k i) d = d ++ ks.map (fun k => (k, i)) := by
  intro ks
  induction ks with
  | nil => intro d _ _; simp
  | cons k ks ih =>
    intro d hnd hfresh
    simp only [List.foldl_cons]
    rw [assocUpd_of_not_mem d k i (hfresh k (List.mem_cons_self k ks))]
    rw [ih (d ++ [(k, i)]) (List.Nodup.of_cons hnd)]
    · simp
    · intro k' hk'
      simp only [List.map_append, List.mem_append]
      rintro (h1 | h2)
      · exact hfresh k' (List.mem_cons_of_mem k hk') h1
      · simp only [List.map_cons, List.map_nil, List.mem_singleton] at h2
        subst h2
        exact (List.nodup_cons.mp hnd).1 hk'

/-- The flat association list the dict build produces when no identifier is
registered twice. -/
def flatDict (n : Nat) (recs : List Term) : List (String × Nat) :=
  ((withIdx n recs).map (fun p => (regKeys p.2).map (fun k => (k, p.1)))).flatten

theorem flatDict_cons (n : Nat) (r : Term) (rest : List Term) :
    flatDict n (r :: rest) =
      (regKeys r).map (fun k => (k, n)) ++ flatDict (n + 1) rest := by
  simp [flatDict, withIdx]

theorem flatDict_keys (n : Nat) (recs : List Term) :
    (flatDict n recs).map Prod.fst = (recs.map regKeys).flatten := by
  induction recs generalizing n with
  | nil => rfl
  | cons r rest ih =>
    rw [flatDict_cons, List.map_append, map_fst_keyPair, ih (n + 1)]
    simp

theorem buildFold_eq (recs : List Term) :
    ∀ (n : Nat) (d : List (String × Nat)),
      (d.map Prod.fst ++ (recs.map regKeys).flatten).Nodup →
      (withIdx n recs).foldl (fun acc kv => registerRec acc kv.1 kv.2) d =
        d ++ flatDict n recs := by
  induction recs with
  | nil => intro n d _; simp [withIdx, flatDict]
  | cons r rest ih =>
    intro n d hnd
    have hnd' : ((d.map Prod.fst ++ regKeys r) ++ (rest.map regKeys).flatten).Nodup := by
      rw [List.append_assoc]
      simpa using hnd
    have hdr := List.nodup_append.mp (List.nodup_append.mp hnd').1
    simp only [withIdx, List.foldl_cons]
    rw [registerRec_eq_foldl]
    rw [foldUpd_of_fresh n (regKeys r) d hdr.2.1 (fun k hk hkd => hdr.2.2 hkd hk)]
    have hih := ih (n + 1) (d ++ (regKeys r).map (fun k => (k, n)))
      (by rw [List.map_append, map_fst_keyPair]; exact hnd')
    rw [hih, flatDict_cons, List.append_assoc]

theorem find?_key_unique :
    ∀ (F : List (String × Nat)), (F.map Prod.fst).Nodup →
      ∀ (k : String) (i : Nat), (k, i) ∈ F →
        F.find? (fun kv => kv.1 = k) = some (k, i) := by
  intro F
  induction F with
  | nil => intro _ k i hm; cases hm
  | cons kv rest ih =>
    intro hnd k i hm
    rcases List.mem_cons.mp hm with rfl | htail
    · exact List.find?_cons_of_pos rest (by simp)
    · by_cases hk : kv.1 = k
      · exfalso
        have h1 : kv.1 ∉ rest.map Prod.fst := (List.nodup_cons.mp (by simpa using hnd)).1
        exact h1 (hk ▸ List.mem_map_of_mem Prod.fst htail)
      · rw [List.find?_cons_of_neg rest (by simpa using hk)]
        exact ih (List.Nodup.of_cons (by simpa using hnd)) k i htail

theorem mem_flatDict (recs : List Term) :
    ∀ (n i : Nat) (r : Term), recs.get? i = some r →
      ∀ k ∈ regKeys r, (k, n + i) ∈ flatDict n recs := by
  induction recs with
  | nil => intro n i r hr; cases hr
  | cons r' rest ih =>
    intro n i r hr k hk
    cases i with
    | zero =>
      cases hr
      simp only [flatDict, withIdx, List.map_cons, List.flatten_cons, List.mem_append]
      exact Or.inl (by simpa using List.mem_map_of_mem (fun k => ((k, n) : String × Nat)) hk)
    | succ j =>
      have := ih (n + 1) j r (by simpa using hr) k hk
      simp only [flatDict, withIdx, List.map_cons, List.flatten_cons, List.mem_append]
      refine Or.inr ?_
      have harith : n + (j + 1) = n + 1 + j := by omega
      rw [harith]
      exact this

/-- C4 counterexample: the claim fails as stated.  Two retained records —
the first with primary id `GO:1` and alternate id `GO:2`, the second with
primary id `GO:2` — are both kept by the obsolete filter, yet in the built
index the first record's alternate identifier `GO:2` resolves to arena
index 1 (the second record) while its primary identifier resolves to arena
index 0: the alternate identifier does not return the same Term object. -/
theorem c4_alt_id_roundtrip_fails :
    retainRecs false [{ id := "GO:1", alt_ids := ["GO:2"] }, { id := "GO:2" }] =
      [{ id := "GO:1", alt_ids := ["GO:2"] }, { id := "GO:2" }] ∧
    "GO:2" ∈ ({ id := "GO:1", alt_ids := ["GO:2"] } : Term).alt_ids ∧
    assocFind (buildDict [{ id := "GO:1", alt_ids := ["GO:2"] }, { id := "GO:2" }]) "GO:1"
      = some 0 ∧
    assocFind (buildDict [{ id := "GO:1", alt_ids := ["GO:2"] }, { id := "GO:2" }]) "GO:2"
      = some 1 :=
  ⟨rfl, by simp, rfl, rfl⟩

theorem assocFind_cons {α : Type} (kv : String × α) (rest : List (String × α)) (k : String) :
    assocFind (kv :: rest) k = if kv.1 = k then some kv.2 else assocFind rest k := by
  by_cases h : kv.1 = k
  · rw [if_pos h]
    unfold assocFind
    rw [List.find?_cons_of_pos rest (by simpa using h)]
    rfl
  · rw [if_neg h]
    unfold assocFind
    rw [List.find?_cons_of_neg rest (by simpa using h)]

theorem find?_append_none {α : Type} {p : α → Bool} :
    ∀ (l1 l2 : List α), l1.find? p = none → (l1 ++ l2).find? p = l2.find? p := by
  intro l1
  induction l1 with
  | nil => intro l2 _; rfl
  | cons x xs ih =>
    intro l2 h
    by_cases hx : p x = true
    · rw [List.find?_cons_of_pos xs hx] at h
      cases h
    · rw [List.find?_cons_of_neg xs hx] at h
      rw [List.cons_append, List.find?_cons_of_neg (xs ++ l2) hx]
      exact ih l2 h

theorem find?_append_some {α : Type} {p : α → Bool} :
    ∀ (l1 l2 : List α) (x : α), l1.find? p = some x → (l1 ++ l2).find? p = some x := by
  intro l1
  induction l1 with
  | nil => intro l2 x h; cases h
  | cons y ys ih =>
    intro l2 x h
    by_cases hy : p y = true
    · rw [List.find?_cons_of_pos ys hy] at h
      rw [List.cons_append, List.find?_cons_of_pos (ys ++ l2) hy]
      exact h
    · rw [List.find?_cons_of_neg ys hy] at h
      rw [List.cons_append, List.find?_cons_of_neg (ys ++ l2) hy]
      exact ih l2 x h

theorem assocFind_mapUpd {α : Type} (k k' : String) (v : α) :
    ∀ d : List (String × α),
      assocFind (d.map (fun kv => if kv.1 = k then (k, v) else kv)) k' =
        if k' = k then (if d.any (fun kv => kv.1 = k) then some v else none)
        else assocFind d k' := by
  intro d
  induction d with
  | nil =>
    by_cases h : k' = k <;> simp [assocFind, h]
  | cons kv rest ih =>
    rw [List.map_cons]
    by_cases hk : k' = k
    · subst hk
      by_cases hkv : kv.1 = k'
      · simp [assocFind_cons, hkv, List.any_cons]
      · have hd : (decide (kv.1 = k')) = false := by simp [hkv]
        simp [assocFind_cons, List.any_cons, ih, hkv]
        rw [hd, Bool.false_or]
    · by_cases hkv : kv.1 = k
      · have h2 : ¬ kv.1 = k' := by
          rw [hkv]
          exact fun he => hk he.symm
        have hk2 : ¬ k = k' := fun he => hk he.symm
        simp [assocFind_cons, hkv, h2, hk, hk2, ih]
      · simp [assocFind_cons, hkv, hk, ih]

/-- Dict-assignment/lookup law: after `d[k] = v`, looking up `k` yields `v`
and every other key is unchanged — whether or not `k` was already bound. -/
theorem assocFind_upd {α : Type} (d : List (String × α)) (k k' : String) (v : α) :
    assocFind (assocUpd d k v) k' = if k' = k then some v else assocFind d k' := by
  unfold assocUpd
  by_cases hany : d.any (fun kv => kv.1 = k) = true
  · rw [if_pos hany, assocFind_mapUpd]
    by_cases hk : k' = k
    · rw [if_pos hk, if_pos hk, if_pos hany]
    · rw [if_neg hk, if_neg hk]
  · rw [if_neg hany]
    by_cases hk : k' = k
    · subst hk
      rw [if_pos rfl]
      have hnone : d.find? (fun kv => kv.1 = k') = none :=
        List.find?_eq_none.mpr
          (fun x hx hpx => hany (List.any_eq_true.mpr ⟨x, hx, hpx⟩))
      unfold assocFind
      rw [find?_append_none d _ hnone, List.find?_cons_of_pos [] (by simp)]
      rfl
    · rw [if_neg hk]
      have h1 : ¬ ((((k, v) : String × α)).1 = k') := fun he => hk he.symm
      cases hf : d.find? (fun kv => kv.1 = k') with
      | none =>
        unfold assocFind
        rw [find?_append_none d _ hf, hf, List.find?_cons_of_neg [] (by simpa using h1)]
        rfl
      | some x =>
        unfold assocFind
        rw [find?_append_some d _ x hf, hf]

theorem foldUpd_find_of_not_mem (i : Nat) :
    ∀ (ks : List String) (d : List (String × Nat)) (k : String), k ∉ ks →
      assocFind (ks.foldl (fun acc k0 => assocUpd acc k0 i) d) k = assocFind d k := by
  intro ks
  induction ks with
  | nil => intro d k _; rfl
  | cons k0 ks ih =>
    intro d k hk
    rw [List.foldl_cons, ih _ k (fun h => hk (List.mem_cons_of_mem k0 h)), assocFind_upd]
    rw [if_neg (fun (he : k = k0) => hk (by rw [he]; exact List.mem_cons_self k0 ks))]

theorem foldUpd_find_of_mem (i : Nat) :
    ∀ (ks : List String) (d : List (String × Nat)) (k : String), k ∈ ks →
      assocFind (ks.foldl (fun acc k0 => assocUpd acc k0 i) d) k = some i := by
  intro ks
  induction ks with
  | nil => intro d k hk; cases hk
  | cons k0 ks ih =>
    intro d k hk
    rw [List.foldl_cons]
    by_cases hmem : k ∈ ks
    · exact ih _ k hmem
    · have hk0 : k = k0 := by
        rcases List.mem_cons.mp hk with h | h
        · exact h
        · exact absurd h hmem
      rw [foldUpd_find_of_not_mem i ks _ k hmem, assocFind_upd, if_pos hk0]

/-- Registering a record binds each of its identifiers (even repeated ones)
to its arena index. -/
theorem registerRec_find_mem (d : List (String × Nat)) (i : Nat) (r : Term)
    (k : String) (hk : k ∈ regKeys r) :
    assocFind (registerRec d i r) k = some i := by
  rw [registerRec_eq_foldl]
  exact foldUpd_find_of_mem i (regKeys r) d k hk

/-- Registering a record leaves every identifier it does not register
unchanged. -/
theorem registerRec_find_not_mem (d : List (String × Nat)) (i : Nat) (r : Term)
    (k : String) (hk : k ∉ regKeys r) :
    assocFind (registerRec d i r) k = assocFind d k := by
  rw [registerRec_eq_foldl]
  exact foldUpd_find_of_not_mem i (regKeys r) d k hk

theorem buildFold_find_preserved :
    ∀ (recs : List Term) (n : Nat) (d : List (String × Nat)) (k : String),
      (∀ r' ∈ recs, k ∉ regKeys r') →
      assocFind ((withIdx n recs).foldl (fun acc kv => registerRec acc kv.1 kv.2) d) k
        = assocFind d k := by
  intro recs
  induction recs with
  | nil => intro n d k _; rfl
  | cons r rest ih =>
    intro n d k hk
    simp only [withIdx, List.foldl_cons]
    rw [ih (n + 1) _ k (fun r' h => hk r' (List.mem_cons_of_mem r h))]
    exact registerRec_find_not_mem d n r k (hk r (List.mem_cons_self r rest))

/-- The dict build resolves every identifier of the record at arena index
`i` to `n + i`, provided no identifier is shared between two distinct
records; a single record may register an identifier several times. -/
theorem buildFold_find (recs : List Term) :
    ∀ (n : Nat) (d : List (String × Nat)),
      (recs.map regKeys).Pairwise (fun ks1 ks2 => ∀ k ∈ ks1, k ∉ ks2) →
      ∀ (i : Nat) (r : Term), recs.get? i = some r → ∀ k ∈ regKeys r,
        assocFind ((withIdx n recs).foldl (fun acc kv => registerRec acc kv.1 kv.2) d) k
          = some (n + i) := by
  induction recs with
  | nil => intro n d _ i r hr; cases hr
  | cons r0 rest ih =>
    intro n d hdisj i r hr k hk
    have hdisj2 : (regKeys r0 :: rest.map regKeys).Pairwise
        (fun ks1 ks2 => ∀ k ∈ ks1, k ∉ ks2) := by simpa using hdisj
    have hd := List.pairwise_cons.mp hdisj2
    simp only [withIdx, List.foldl_cons]
    cases i with
    | zero =>
      cases hr
      rw [Nat.add_zero]
      rw [buildFold_find_preserved rest (n + 1) _ k
        (fun r' hr' hk' => hd.1 (regKeys r') (List.mem_map_of_mem regKeys hr') k hk hk')]
      exact registerRec_find_mem d n r0 k hk
    | succ j =>
      have hrec := ih (n + 1) (registerRec d n r0) hd.2 j r (by simpa using hr) k hk
      rw [show n + (j + 1) = (n + 1) + j by omega]
      exact hrec

/-- C4 (amended): provided no identifier (primary or alternate) is
registered by two distinct retained records — which well-formed ontology
files guarantee; one record registering an identifier more than once, for
instance its own primary id among its alternates, is allowed — every
identifier of a retained record, alternate ids included, resolves through
the built index to that record's arena index, i.e. to the very same Term
object as the primary identifier. -/
theorem c4_alt_id_roundtrip_of_distinct (recs : List Term)
    (hdisj : (recs.map regKeys).Pairwise (fun ks1 ks2 => ∀ k ∈ ks1, k ∉ ks2))
    (i : Nat) (r : Term) (hr : recs.get? i = some r) :
    assocFind (buildDict recs) r.id = some i ∧
    ∀ alt ∈ r.alt_ids, assocFind (buildDict recs) alt = some i := by
  constructor
  · have h := buildFold_find recs 0 [] hdisj i r hr r.id (by simp [regKeys])
    simpa [buildDict] using h
  · intro alt halt
    have h := buildFold_find recs 0 [] hdisj i r hr alt (by simp [regKeys, halt])
    simpa [buildDict] using h

/-- Witness for the amended C4 theorem: the first record registers its own
primary identifier a second time as an alternate id (allowed by the
proviso: no identifier is shared between two distinct records), and every
one of its identifiers still resolves to arena index 0. -/
theorem c4_alt_id_roundtrip_of_distinct_witness :
    assocFind
        (buildDict [{ id := "GO:1", alt_ids := ["GO:1", "GO:9"] }, { id := "GO:2" }])
        "GO:1" = some 0 ∧
    ∀ alt ∈ ({ id := "GO:1", alt_ids := ["GO:1", "GO:9"] } : Term).alt_ids,
      assocFind
          (buildDict [{ id := "GO:1", alt_ids := ["GO:1", "GO:9"] }, { id := "GO:2" }])
          alt = some 0 :=
  c4_alt_id_roundtrip_of_distinct
    [{ id := "GO:1", alt_ids := ["GO:1", "GO:9"] }, { id := "GO:2" }]
    (by simp [regKeys]) 0 { id := "GO:1", alt_ids := ["GO:1", "GO:9"] } rfl

/-! ## Pointwise-stability infrastructure for the assembly pass

`projStable proj a b` says the arenas `a` and `b` agree pointwise on the
field projection `proj` — each mutation of `populate_terms` touches only a
few fields, and everything below tracks which. -/

def projStable {γ : Type} (proj : Term → γ) (a b : List Term) : Prop :=
  ∀ j, (a.get? j).map proj = (b.get? j).map proj

theorem projStable_refl {γ : Type} (proj : Term → γ) (a : List Term) :
    projStable proj a a := fun _ => rfl

theorem projStable_trans {γ : Type} {proj : Term → γ} {a b c : List Term}
    (h1 : projStable proj a b) (h2 : projStable proj b c) :
    projStable proj a c := fun j => (h1 j).trans (h2 j)

theorem projStable_mono {γ δ : Type} {proj : Term → γ} {proj' : Term → δ}
    (hfac : ∀ t s, proj t = proj s → proj' t = proj' s) {a b : List Term}
    (h : projStable proj a b) : projStable proj' a b := by
  intro j
  have hj := h j
  cases ha : a.get? j <;> cases hb : b.get? j <;> rw [ha, hb] at hj <;>
    simp only [Option.map_none', Option.map_some'] at hj ⊢
  · cases hj
  · cases hj
  · exact congrArg some (hfac _ _ (Option.some.inj hj))

theorem projStable_some {γ : Type} {proj : Term → γ} {a b : List Term}
    (h : projStable proj a b) {j : Nat} {t : Term} (hj : a.get? j = some t) :
    ∃ t', b.get? j = some t' ∧ proj t' = proj t := by
  have hj' := h j
  rw [hj] at hj'
  cases hb : b.get? j <;> rw [hb] at hj' <;>
    simp only [Option.map_none', Option.map_some'] at hj'
  · cases hj'
  · exact ⟨_, rfl, (Option.some.inj hj').symm⟩

theorem get?_set_self' (a : List Term) (i : Nat) (t x : Term)
    (h : a.get? i = some t) : (a.set i x).get? i = some x := by
  rw [List.get?_set_eq, h]
  rfl

theorem projStable_set {γ : Type} {proj : Term → γ} (a : List Term) (i : Nat)
    (t x : Term) (hg : a.get? i = some t) (hx : proj x = proj t) :
    projStable proj a (a.set i x) := by
  intro j
  by_cases hj : j = i
  · subst hj
    rw [hg, get?_set_self' a j t x hg]
    simp [hx]
  · rw [List.get?_set_ne _ _ (fun hh => hj hh.symm)]

/-- Everything except the `children` field. -/
def exceptCh (t : Term) : Term := { t with children := [] }

/-- Everything except the `relationship` attribute. -/
def exceptRel (t : Term) : Term := { t with rel := none }

/-- Everything except the `level` field. -/
def exceptLv (t : Term) : Term := { t with level := none }

/-- Everything except the `depth` field. -/
def exceptDp (t : Term) : Term := { t with depth := none }

theorem addChild_stable (a : List Term) (c p : Nat) :
    projStable exceptCh a (addChild a c p) := by
  unfold addChild
  cases hg : a.get? p with
  | none => exact projStable_refl _ _
  | some pt =>
    dsimp only
    by_cases hc : c ∈ pt.children
    · rw [if_pos hc]; exact projStable_refl _ _
    · rw [if_neg hc]; exact projStable_set a p pt _ hg rfl

theorem foldl_addChild_stable (c : Nat) :
    ∀ (ps : List Nat) (a : List Term),
      projStable exceptCh a (ps.foldl (fun acc p => addChild acc c p) a) := by
  intro ps
  induction ps with
  | nil => intro a; exact projStable_refl _ _
  | cons p ps ih =>
    intro a
    exact projStable_trans (addChild_stable a c p) (ih (addChild a c p))

theorem relAddAt_stable (a : List Term) (tgt : Nat) (k : String) (v : Nat) :
    projStable exceptRel a (relAddAt a tgt k v) := by
  unfold relAddAt
  cases hg : a.get? tgt with
  | none => exact projStable_refl _ _
  | some t => exact projStable_set a tgt t _ hg rfl


theorem foldl_relAddAt_stable (k : String) (v : Nat) :
    ∀ (tgts : List Nat) (a : List Term),
      projStable exceptRel a (tgts.foldl (fun acc tgt => relAddAt acc tgt k v) a) := by
  intro tgts
  induction tgts with
  | nil => intro a; exact projStable_refl _ _
  | cons tgt tgts ih =>
    intro a
    exact projStable_trans (relAddAt_stable a tgt k v) (ih _)

theorem invertRel_stable (tds : List (String × TypeDef)) (i : Nat) :
    ∀ (rmap : List (String × List Nat)) (a a' : List Term),
      invertRel tds i rmap a = .ok a' → projStable exceptRel a a' := by
  intro rmap
  induction rmap with
  | nil =>
    intro a a' h
    cases h
    exact projStable_refl _ _
  | cons kv rest ih =>
    intro a a' h
    unfold invertRel at h
    cases htd : assocFind tds kv.1 with
    | none => rw [htd] at h; cases h
    | some tdrec =>
      rw [htd] at h
      dsimp only at h
      by_cases hinv : tdrec.inverse_of = ""
      · rw [if_pos hinv] at h
        exact ih a a' h
      · rw [if_neg hinv] at h
        exact projStable_trans (foldl_relAddAt_stable tdrec.inverse_of i kv.2 a) (ih _ _ h)

/-- Generic transport along a `metricFold` whose step respects a reflexive
transitive relation. -/
theorem metricFold_rel {R : List Term → List Term → Prop}
    (hrefl : ∀ x, R x x) (htrans : ∀ x y z, R x y → R y z → R x z)
    (f : List Term → Nat → Except PopErr (List Term × Nat))
    (hf : ∀ x p y v, f x p = .ok (y, v) → R x y) :
    ∀ (ps : List Nat) (x y : List Term) (vs : List Nat),
      metricFold f x ps = .ok (y, vs) → R x y := by
  intro ps
  induction ps with
  | nil =>
    intro x y vs h
    cases h
    exact hrefl x
  | cons p ps ih =>
    intro x y vs h
    unfold metricFold at h
    cases h1 : f x p with
    | error e => rw [h1] at h; cases h
    | ok av =>
      obtain ⟨x2, v⟩ := av
      rw [h1] at h
      dsimp only at h
      cases h2 : metricFold f x2 ps with
      | error e => rw [h2] at h; cases h
      | ok avs =>
        obtain ⟨x3, vs'⟩ := avs
        rw [h2] at h
        dsimp only at h
        cases h
        exact htrans _ _ _ (hf x p x2 v h1) (ih x2 _ _ h2)

/-! ## Behaviour of the memoized level/depth computation -/

/-- A record with no parents never carries a nonzero level (invariant of
the memo pass: the only write to a parentless record writes 0). -/
def RootZeroLv (a : List Term) : Prop :=
  ∀ j t, a.get? j = some t → t.parents = [] → t.level = none ∨ t.level = some 0

/-- Depth counterpart of `RootZeroLv`. -/
def RootZeroDp (a : List Term) : Prop :=
  ∀ j t, a.get? j = some t → t.parents = [] → t.depth = none ∨ t.depth = some 0

/-- Every already-set level value survives from `a` to `b`. -/
def levelKeeps (a b : List Term) : Prop :=
  ∀ j t v, a.get? j = some t → t.level = some v →
    ∃ t', b.get? j = some t' ∧ t'.level = some v

/-- Every already-set depth value survives from `a` to `b`. -/
def depthKeeps (a b : List Term) : Prop :=
  ∀ j t v, a.get? j = some t → t.depth = some v →
    ∃ t', b.get? j = some t' ∧ t'.depth = some v

theorem levelKeeps_refl (a : List Term) : levelKeeps a a :=
  fun _ t v hj hv => ⟨t, hj, hv⟩

theorem levelKeeps_trans {a b c : List Term} (h1 : levelKeeps a b)
    (h2 : levelKeeps b c) : levelKeeps a c := by
  intro j t v hj hv
  obtain ⟨t', hb, hv'⟩ := h1 j t v hj hv
  exact h2 j t' v hb hv'

theorem depthKeeps_refl (a : List Term) : depthKeeps a a :=
  fun _ t v hj hv => ⟨t, hj, hv⟩

theorem depthKeeps_trans {a b c : List Term} (h1 : depthKeeps a b)
    (h2 : depthKeeps b c) : depthKeeps a c := by
  intro j t v hj hv
  obtain ⟨t', hb, hv'⟩ := h1 j t v hj hv
  exact h2 j t' v hb hv'

theorem levelKeeps_set_of_src_none {a b : List Term} (hlk : levelKeeps a b)
    (i : Nat) (t : Term) (hg : a.get? i = some t) (hl : t.level = none)
    (x : Term) : levelKeeps a (b.set i x) := by
  intro j t0 w hj hw
  by_cases hij : j = i
  · subst hij
    rw [hj] at hg
    cases hg
    rw [hl] at hw
    cases hw
  · obtain ⟨t', hb, hl'⟩ := hlk j t0 w hj hw
    exact ⟨t', by rw [List.get?_set_ne _ _ (fun hh => hij hh.symm)]; exact hb, hl'⟩

theorem depthKeeps_set_of_src_none {a b : List Term} (hlk : depthKeeps a b)
    (i : Nat) (t : Term) (hg : a.get? i = some t) (hl : t.depth = none)
    (x : Term) : depthKeeps a (b.set i x) := by
  intro j t0 w hj hw
  by_cases hij : j = i
  · subst hij
    rw [hj] at hg
    cases hg
    rw [hl] at hw
    cases hw
  · obtain ⟨t', hb, hl'⟩ := hlk j t0 w hj hw
    exact ⟨t', by rw [List.get?_set_ne _ _ (fun hh => hij hh.symm)]; exact hb, hl'⟩

/-- Full behavioural specification of a successful `init_level` call: only
level fields change, set levels are never lost, the parentless-record
invariant is preserved, and the record at `i` ends with level `some v`. -/
theorem init_level_spec :
    ∀ (fuel : Nat) (a : List Term) (i : Nat) (a' : List Term) (v : Nat),
      init_level fuel a i = .ok (a', v) →
      projStable exceptLv a a' ∧ levelKeeps a a' ∧
      (RootZeroLv a → RootZeroLv a') ∧
      (∃ t', a'.get? i = some t' ∧ t'.level = some v) := by
  intro fuel
  induction fuel with
  | zero => intro a i a' v h; cases h
  | succ fuel ih =>
    intro a i a' v h
    unfold init_level at h
    cases hg : a.get? i with
    | none => rw [hg] at h; cases h
    | some t =>
      rw [hg] at h
      dsimp only at h
      cases hl : t.level with
      | some l =>
        rw [hl] at h
        cases h
        exact ⟨projStable_refl _ _, levelKeeps_refl a, id, t, hg, hl⟩
      | none =>
        rw [hl] at h
        cases hp : t.parents with
        | nil =>
          rw [hp] at h
          cases h
          refine ⟨projStable_set a i t _ hg (by simp [exceptLv, hp]),
            levelKeeps_set_of_src_none (levelKeeps_refl a) i t hg hl _, ?_, ?_⟩
          · intro hrz j s hs hps
            by_cases hij : j = i
            · subst hij
              rw [get?_set_self' a j t _ hg] at hs
              cases hs
              exact Or.inr rfl
            · rw [List.get?_set_ne _ _ (fun hh => hij hh.symm)] at hs
              exact hrz j s hs hps
          · exact ⟨_, get?_set_self' a i t _ hg, rfl⟩
        | cons p ps =>
          rw [hp] at h
          dsimp only at h
          cases h1 : init_level fuel a p with
          | error e => rw [h1] at h; cases h
          | ok av =>
            obtain ⟨a2, v1⟩ := av
            rw [h1] at h
            dsimp only at h
            cases h2 : metricFold (fun x q => init_level fuel x q) a2 ps with
            | error e => rw [h2] at h; cases h
            | ok avs =>
              obtain ⟨a3, vs⟩ := avs
              rw [h2] at h
              dsimp only at h
              cases h
              have r1 := ih a p a2 v1 h1
              have r2 : projStable exceptLv a2 a3 ∧ levelKeeps a2 a3 ∧
                  (RootZeroLv a2 → RootZeroLv a3) :=
                metricFold_rel
                  (R := fun x y => projStable exceptLv x y ∧ levelKeeps x y ∧
                    (RootZeroLv x → RootZeroLv y))
                  (fun x => ⟨projStable_refl _ _, levelKeeps_refl x, id⟩)
                  (fun x y z hxy hyz =>
                    ⟨projStable_trans hxy.1 hyz.1,
                     levelKeeps_trans hxy.2.1 hyz.2.1,
                     fun hh => hyz.2.2 (hxy.2.2 hh)⟩)
                  _ (fun x q y w hq =>
                      ⟨(ih x q y w hq).1, (ih x q y w hq).2.1, (ih x q y w hq).2.2.1⟩)
                  ps a2 a3 vs h2
              have hol : projStable exceptLv a a3 := projStable_trans r1.1 r2.1
              obtain ⟨t3, hget3, ht3⟩ := projStable_some hol hg
              refine ⟨?_, ?_, ?_, ?_⟩
              · exact projStable_trans hol
                  (projStable_set a3 i t3 _ hget3 (by rw [ht3]; simp [exceptLv, hp]))
              · exact levelKeeps_set_of_src_none
                  (levelKeeps_trans r1.2.1 r2.2.1) i t hg hl _
              · intro hrz
                have hrz3 : RootZeroLv a3 := r2.2.2 (r1.2.2.1 hrz)
                intro j s hs hps
                by_cases hij : j = i
                · subst hij
                  rw [get?_set_self' a3 j t3 _ hget3] at hs
                  cases hs
                  exact (List.cons_ne_nil p ps hps).elim
                · rw [List.get?_set_ne _ _ (fun hh => hij hh.symm)] at hs
                  exact hrz3 j s hs hps
              · exact ⟨_, get?_set_self' a3 i t3 _ hget3, rfl⟩

/-- Full behavioural specification of a successful `init_depth` call: only
depth fields change, set depths are never lost, the parentless-record
invariant is preserved, and the record at `i` ends with depth `some v`. -/
theorem init_depth_spec :
    ∀ (fuel : Nat) (a : List Term) (i : Nat) (a' : List Term) (v : Nat),
      init_depth fuel a i = .ok (a', v) →
      projStable exceptDp a a' ∧ depthKeeps a a' ∧
      (RootZeroDp a → RootZeroDp a') ∧
      (∃ t', a'.get? i = some t' ∧ t'.depth = some v) := by
  intro fuel
  induction fuel with
  | zero => intro a i a' v h; cases h
  | succ fuel ih =>
    intro a i a' v h
    unfold init_depth at h
    cases hg : a.get? i with
    | none => rw [hg] at h; cases h
    | some t =>
      rw [hg] at h
      dsimp only at h
      cases hl : t.depth with
      | some l =>
        rw [hl] at h
        cases h
        exact ⟨projStable_refl _ _, depthKeeps_refl a, id, t, hg, hl⟩
      | none =>
        rw [hl] at h
        cases hp : t.parents with
        | nil =>
          rw [hp] at h
          cases h
          refine ⟨projStable_set a i t _ hg (by simp [exceptDp, hp]),
            depthKeeps_set_of_src_none (depthKeeps_refl a) i t hg hl _, ?_, ?_⟩
          · intro hrz j s hs hps
            by_cases hij : j = i
            · subst hij
              rw [get?_set_self' a j t _ hg] at hs
              cases hs
              exact Or.inr rfl
            · rw [List.get?_set_ne _ _ (fun hh => hij hh.symm)] at hs
              exact hrz j s hs hps
          · exact ⟨_, get?_set_self' a i t _ hg, rfl⟩
        | cons p ps =>
          rw [hp] at h
          dsimp only at h
          cases h1 : init_depth fuel a p with
          | error e => rw [h1] at h; cases h
          | ok av =>
            obtain ⟨a2, v1⟩ := av
            rw [h1] at h
            dsimp only at h
            cases h2 : metricFold (fun x q => init_depth fuel x q) a2 ps with
            | error e => rw [h2] at h; cases h
            | ok avs =>
              obtain ⟨a3, vs⟩ := avs
              rw [h2] at h
              dsimp only at h
              cases h
              have r1 := ih a p a2 v1 h1
              have r2 : projStable exceptDp a2 a3 ∧ depthKeeps a2 a3 ∧
                  (RootZeroDp a2 → RootZeroDp a3) :=
                metricFold_rel
                  (R := fun x y => projStable exceptDp x y ∧ depthKeeps x y ∧
                    (RootZeroDp x → RootZeroDp y))
                  (fun x => ⟨projStable_refl _ _, depthKeeps_refl x, id⟩)
                  (fun x y z hxy hyz =>
                    ⟨projStable_trans hxy.1 hyz.1,
                     depthKeeps_trans hxy.2.1 hyz.2.1,
                     fun hh => hyz.2.2 (hxy.2.2 hh)⟩)
                  _ (fun x q y w hq =>
                      ⟨(ih x q y w hq).1, (ih x q y w hq).2.1, (ih x q y w hq).2.2.1⟩)
                  ps a2 a3 vs h2
              have hol : projStable exceptDp a a3 := projStable_trans r1.1 r2.1
              obtain ⟨t3, hget3, ht3⟩ := projStable_some hol hg
              refine ⟨?_, ?_, ?_, ?_⟩
              · exact projStable_trans hol
                  (projStable_set a3 i t3 _ hget3 (by rw [ht3]; simp [exceptDp, hp]))
              · exact depthKeeps_set_of_src_none
                  (depthKeeps_trans r1.2.1 r2.2.1) i t hg hl _
              · intro hrz
                have hrz3 : RootZeroDp a3 := r2.2.2 (r1.2.2.1 hrz)
                intro j s hs hps
                by_cases hij : j = i
                · subst hij
                  rw [get?_set_self' a3 j t3 _ hget3] at hs
                  cases hs
                  exact (List.cons_ne_nil p ps hps).elim
                · rw [List.get?_set_ne _ _ (fun hh => hij hh.symm)] at hs
                  exact hrz3 j s hs hps
              · exact ⟨_, get?_set_self' a3 i t3 _ hget3, rfl⟩

/-! ## Children and relationship predicates -/

/-- Record `p` lists `c` among its children. -/
def childHas (a : List Term) (p c : Nat) : Prop :=
  ∃ t, a.get? p = some t ∧ c ∈ t.children

/-- No record lists a child twice. -/
def NodupCh (a : List Term) : Prop :=
  ∀ j t, a.get? j = some t → t.children.Nodup

/-- Record `j`'s relationship map has an entry with key `k` containing `v`. -/
def RelHas (a : List Term) (j : Nat) (k : String) (v : Nat) : Prop :=
  ∃ t m e, a.get? j = some t ∧ t.rel = some m ∧ e ∈ m ∧ e.1 = k ∧ v ∈ e.2

theorem childHas_of_chStable {a b : List Term}
    (h : projStable (fun t => t.children) a b) :
    ∀ p c, childHas a p c → childHas b p c := by
  rintro p c ⟨t, hp, hc⟩
  obtain ⟨t', hb, he⟩ := projStable_some h hp
  exact ⟨t', hb, he ▸ hc⟩

theorem nodupCh_of_chStable {a b : List Term}
    (h : projStable (fun t => t.children) a b) :
    NodupCh a → NodupCh b := by
  intro hnd j t' hb
  have h' := h j
  cases ha : a.get? j <;> rw [ha, hb] at h' <;>
    simp only [Option.map_none', Option.map_some'] at h'
  · cases h'
  · rw [← Option.some.inj h']
    exact hnd j _ ha

theorem relHas_of_relStable {a b : List Term}
    (h : projStable (fun t => t.rel) a b) :
    ∀ j k v, RelHas a j k v → RelHas b j k v := by
  rintro j k v ⟨t, m, e, hj, hm, hem, hek, hv⟩
  obtain ⟨t', hb, he⟩ := projStable_some h hj
  exact ⟨t', m, e, hb, he ▸ hm, hem, hek, hv⟩

theorem isSome_of_projStable {γ : Type} {proj : Term → γ} {a b : List Term}
    (h : projStable proj a b) {j : Nat} (hj : ∃ t, a.get? j = some t) :
    ∃ t', b.get? j = some t' := by
  obtain ⟨t, ht⟩ := hj
  obtain ⟨t', hb, _⟩ := projStable_some h ht
  exact ⟨t', hb⟩

/-- Field extraction from the erasure equalities. -/
theorem exceptCh_eq_parents {t s : Term} (h : exceptCh t = exceptCh s) :
    t.parents = s.parents := by have h2 := congrArg Term.parents h; exact h2

theorem exceptCh_eq_level {t s : Term} (h : exceptCh t = exceptCh s) :
    t.level = s.level := by have h2 := congrArg Term.level h; exact h2

theorem exceptCh_eq_depth {t s : Term} (h : exceptCh t = exceptCh s) :
    t.depth = s.depth := by have h2 := congrArg Term.depth h; exact h2

theorem exceptCh_eq_rel {t s : Term} (h : exceptCh t = exceptCh s) :
    t.rel = s.rel := by have h2 := congrArg Term.rel h; exact h2

theorem exceptRel_eq_parents {t s : Term} (h : exceptRel t = exceptRel s) :
    t.parents = s.parents := by have h2 := congrArg Term.parents h; exact h2

theorem exceptRel_eq_level {t s : Term} (h : exceptRel t = exceptRel s) :
    t.level = s.level := by have h2 := congrArg Term.level h; exact h2

theorem exceptRel_eq_depth {t s : Term} (h : exceptRel t = exceptRel s) :
    t.depth = s.depth := by have h2 := congrArg Term.depth h; exact h2

theorem exceptRel_eq_children {t s : Term} (h : exceptRel t = exceptRel s) :
    t.children = s.children := by have h2 := congrArg Term.children h; exact h2

theorem exceptLv_eq_children {t s : Term} (h : exceptLv t = exceptLv s) :
    t.children = s.children := by have h2 := congrArg Term.children h; exact h2

theorem exceptLv_eq_rel {t s : Term} (h : exceptLv t = exceptLv s) :
    t.rel = s.rel := by have h2 := congrArg Term.rel h; exact h2

theorem exceptLv_eq_depth {t s : Term} (h : exceptLv t = exceptLv s) :
    t.depth = s.depth := by have h2 := congrArg Term.depth h; exact h2

theorem exceptLv_eq_parents {t s : Term} (h : exceptLv t = exceptLv s) :
    t.parents = s.parents := by have h2 := congrArg Term.parents h; exact h2

theorem exceptDp_eq_children {t s : Term} (h : exceptDp t = exceptDp s) :
    t.children = s.children := by have h2 := congrArg Term.children h; exact h2

theorem exceptDp_eq_rel {t s : Term} (h : exceptDp t = exceptDp s) :
    t.rel = s.rel := by have h2 := congrArg Term.rel h; exact h2

theorem exceptDp_eq_level {t s : Term} (h : exceptDp t = exceptDp s) :
    t.level = s.level := by have h2 := congrArg Term.level h; exact h2

theorem exceptDp_eq_parents {t s : Term} (h : exceptDp t = exceptDp s) :
    t.parents = s.parents := by have h2 := congrArg Term.parents h; exact h2

/-- `RootZeroLv` follows from pointwise stability of parents and level. -/
theorem rootZeroLv_of_stable {a b : List Term}
    (h : projStable (fun t => (t.parents, t.level)) a b) :
    RootZeroLv a → RootZeroLv b := by
  intro hrz j t' hb hp
  have h' := h j
  cases ha : a.get? j <;> rw [ha, hb] at h' <;>
    simp only [Option.map_none', Option.map_some'] at h'
  · cases h'
  · obtain ⟨h1, h2⟩ := Prod.mk.injEq .. ▸ Option.some.inj h'
    rw [← h2]
    exact hrz j _ ha (by rw [h1, hp])

theorem rootZeroDp_of_stable {a b : List Term}
    (h : projStable (fun t => (t.parents, t.depth)) a b) :
    RootZeroDp a → RootZeroDp b := by
  intro hrz j t' hb hp
  have h' := h j
  cases ha : a.get? j <;> rw [ha, hb] at h' <;>
    simp only [Option.map_none', Option.map_some'] at h'
  · cases h'
  · obtain ⟨h1, h2⟩ := Prod.mk.injEq .. ▸ Option.some.inj h'
    rw [← h2]
    exact hrz j _ ha (by rw [h1, hp])

theorem levelKeeps_of_stable {a b : List Term}
    (h : projStable (fun t => t.level) a b) : levelKeeps a b := by
  intro j t v hj hv
  obtain ⟨t', hb, he⟩ := projStable_some h hj
  exact ⟨t', hb, he ▸ hv⟩

theorem depthKeeps_of_stable {a b : List Term}
    (h : projStable (fun t => t.depth) a b) : depthKeeps a b := by
  intro j t v hj hv
  obtain ⟨t', hb, he⟩ := projStable_some h hj
  exact ⟨t', hb, he ▸ hv⟩

/-! ## addChild: establishment, monotonicity, nodup -/

theorem addChild_childHas_mono (a : List Term) (c p : Nat) :
    ∀ q d, childHas a q d → childHas (addChild a c p) q d := by
  rintro q d ⟨t, hq, hd⟩
  unfold addChild
  cases hg : a.get? p with
  | none => exact ⟨t, hq, hd⟩
  | some pt =>
    dsimp only
    by_cases hc : c ∈ pt.children
    · rw [if_pos hc]; exact ⟨t, hq, hd⟩
    · rw [if_neg hc]
      by_cases hqp : q = p
      · subst hqp
        rw [hq] at hg
        cases hg
        exact ⟨_, get?_set_self' a q t _ hq, List.mem_append_left _ hd⟩
      · exact ⟨t, by rw [List.get?_set_ne _ _ (fun hh => hqp hh.symm)]; exact hq, hd⟩

theorem addChild_nodup (a : List Term) (c p : Nat) :
    NodupCh a → NodupCh (addChild a c p) := by
  intro hnd
  unfold addChild
  cases hg : a.get? p with
  | none => exact hnd
  | some pt =>
    dsimp only
    by_cases hc : c ∈ pt.children
    · rw [if_pos hc]; exact hnd
    · rw [if_neg hc]
      intro j t hj
      by_cases hjp : j = p
      · subst hjp
        rw [get?_set_self' a j pt _ hg] at hj
        cases hj
        refine List.Nodup.append (hnd j pt hg) (List.nodup_singleton c) ?_
        intro x hx hxc
        rw [List.mem_singleton] at hxc
        subst hxc
        exact hc hx
      · rw [List.get?_set_ne _ _ (fun hh => hjp hh.symm)] at hj
        exact hnd j t hj

theorem addChild_establish (a : List Term) (c p : Nat) (pt : Term)
    (hval : a.get? p = some pt) : childHas (addChild a c p) p c := by
  unfold addChild
  rw [hval]
  dsimp only
  by_cases hc : c ∈ pt.children
  · rw [if_pos hc]; exact ⟨pt, hval, hc⟩
  · rw [if_neg hc]
    exact ⟨_, get?_set_self' a p pt _ hval, List.mem_append_right _ (List.mem_singleton_self c)⟩

theorem foldl_addChild_childHas_mono (c : Nat) :
    ∀ (ps : List Nat) (a : List Term) (q d : Nat),
      childHas a q d → childHas (ps.foldl (fun acc p => addChild acc c p) a) q d := by
  intro ps
  induction ps with
  | nil => intro a q d h; exact h
  | cons p ps ih =>
    intro a q d h
    exact ih (addChild a c p) q d (addChild_childHas_mono a c p q d h)

theorem foldl_addChild_nodup (c : Nat) :
    ∀ (ps : List Nat) (a : List Term),
      NodupCh a → NodupCh (ps.foldl (fun acc p => addChild acc c p) a) := by
  intro ps
  induction ps with
  | nil => intro a h; exact h
  | cons p ps ih =>
    intro a h
    exact ih (addChild a c p) (addChild_nodup a c p h)

theorem foldl_addChild_establish (c : Nat) :
    ∀ (ps : List Nat) (a : List Term) (p : Nat), p ∈ ps →
      (∃ t, a.get? p = some t) →
      childHas (ps.foldl (fun acc q => addChild acc c q) a) p c := by
  intro ps
  induction ps with
  | nil => intro a p hp; cases hp
  | cons q qs ih =>
    intro a p hp hval
    simp only [List.foldl_cons]
    rcases List.mem_cons.mp hp with rfl | hp'
    · obtain ⟨t, ht⟩ := hval
      exact foldl_addChild_childHas_mono c qs (addChild a c p) p c
        (addChild_establish a c p t ht)
    · exact ih (addChild a c q) p hp'
        (isSome_of_projStable (addChild_stable a c q) hval)

/-! ## relAdd/relAddAt/invertRel: establishment and monotonicity -/

theorem relAdd_entry_mono (m : List (String × List Nat)) (k : String) (v : Nat) :
    ∀ e ∈ m, ∃ e', e' ∈ relAdd m k v ∧ e'.1 = e.1 ∧ ∀ x ∈ e.2, x ∈ e'.2 := by
  intro e he
  unfold relAdd
  by_cases hany : m.any (fun kv => kv.1 = k)
  · rw [if_pos hany]
    by_cases hek : e.1 = k
    · refine ⟨(e.1, if v ∈ e.2 then e.2 else e.2 ++ [v]), ?_, rfl, ?_⟩
      · have := List.mem_map_of_mem
          (fun kv : String × List Nat =>
            if kv.1 = k then (kv.1, if v ∈ kv.2 then kv.2 else kv.2 ++ [v]) else kv) he
        simpa [hek] using this
      · intro x hx
        by_cases hv : v ∈ e.2 <;> simp [hv, hx]
    · refine ⟨e, ?_, rfl, fun x hx => hx⟩
      have := List.mem_map_of_mem
        (fun kv : String × List Nat =>
          if kv.1 = k then (kv.1, if v ∈ kv.2 then kv.2 else kv.2 ++ [v]) else kv) he
      simpa [hek] using this
  · rw [if_neg hany]
    exact ⟨e, List.mem_append_left _ he, rfl, fun x hx => hx⟩

theorem relAdd_adds (m : List (String × List Nat)) (k : String) (v : Nat) :
    ∃ e, e ∈ relAdd m k v ∧ e.1 = k ∧ v ∈ e.2 := by
  unfold relAdd
  by_cases hany : m.any (fun kv => kv.1 = k)
  · rw [if_pos hany]
    simp only [List.any_eq_true, decide_eq_true_eq] at hany
    obtain ⟨kv, hkv, hk⟩ := hany
    refine ⟨(kv.1, if v ∈ kv.2 then kv.2 else kv.2 ++ [v]), ?_, hk, ?_⟩
    · have := List.mem_map_of_mem
        (fun kv : String × List Nat =>
          if kv.1 = k then (kv.1, if v ∈ kv.2 then kv.2 else kv.2 ++ [v]) else kv) hkv
      simpa [hk] using this
    · by_cases hv : v ∈ kv.2 <;> simp [hv]
  · rw [if_neg hany]
    exact ⟨(k, [v]), List.mem_append_right _ (List.mem_singleton_self _), rfl,
      List.mem_singleton_self _⟩

theorem relAddAt_relHas_mono (a : List Term) (tgt : Nat) (k : String) (v : Nat) :
    ∀ j k' v', RelHas a j k' v' → RelHas (relAddAt a tgt k v) j k' v' := by
  rintro j k' v' ⟨t, m, e, hj, hm, hem, hek, hv⟩
  unfold relAddAt
  cases hg : a.get? tgt with
  | none => exact ⟨t, m, e, hj, hm, hem, hek, hv⟩
  | some tt =>
    dsimp only
    by_cases hjt : j = tgt
    · subst hjt
      rw [hj] at hg
      cases hg
      obtain ⟨e', he'm, he'k, he'sub⟩ := relAdd_entry_mono (t.rel.getD []) k v e (by rw [hm] at *; simpa using hem)
      exact ⟨_, relAdd (t.rel.getD []) k v, e', get?_set_self' a j t _ hj, rfl,
        he'm, he'k.trans hek, he'sub v' hv⟩
    · exact ⟨t, m, e, by rw [List.get?_set_ne _ _ (fun hh => hjt hh.symm)]; exact hj,
        hm, hem, hek, hv⟩

theorem relAddAt_establish (a : List Term) (tgt : Nat) (k : String) (v : Nat)
    (t : Term) (hval : a.get? tgt = some t) :
    RelHas (relAddAt a tgt k v) tgt k v := by
  unfold relAddAt
  rw [hval]
  dsimp only
  obtain ⟨e, hem, hek, hv⟩ := relAdd_adds (t.rel.getD []) k v
  exact ⟨_, relAdd (t.rel.getD []) k v, e, get?_set_self' a tgt t _ hval, rfl, hem, hek, hv⟩

theorem foldl_relAddAt_relHas_mono (k : String) (v : Nat) :
    ∀ (tgts : List Nat) (a : List Term) (j : Nat) (k' : String) (v' : Nat),
      RelHas a j k' v' →
      RelHas (tgts.foldl (fun acc tgt => relAddAt acc tgt k v) a) j k' v' := by
  intro tgts
  induction tgts with
  | nil => intro a j k' v' h; exact h
  | cons tgt tgts ih =>
    intro a j k' v' h
    exact ih _ j k' v' (relAddAt_relHas_mono a tgt k v j k' v' h)

theorem foldl_relAddAt_establish (k : String) (v : Nat) :
    ∀ (tgts : List Nat) (a : List Term) (tgt : Nat), tgt ∈ tgts →
      (∃ t, a.get? tgt = some t) →
      RelHas (tgts.foldl (fun acc q => relAddAt acc q k v) a) tgt k v := by
  intro tgts
  induction tgts with
  | nil => intro a tgt h; cases h
  | cons q qs ih =>
    intro a tgt htgt hval
    simp only [List.foldl_cons]
    rcases List.mem_cons.mp htgt with rfl | htgt'
    · obtain ⟨t, ht⟩ := hval
      exact foldl_relAddAt_relHas_mono k v qs _ tgt k v (relAddAt_establish a tgt k v t ht)
    · exact ih _ tgt htgt'
        (isSome_of_projStable (relAddAt_stable a q k v) hval)

theorem invertRel_relHas_mono (tds : List (String × TypeDef)) (i : Nat) :
    ∀ (rmap : List (String × List Nat)) (a a' : List Term),
      invertRel tds i rmap a = .ok a' →
      ∀ j k v, RelHas a j k v → RelHas a' j k v := by
  intro rmap
  induction rmap with
  | nil =>
    intro a a' h j k v hr
    cases h
    exact hr
  | cons kv rest ih =>
    intro a a' h j k v hr
    unfold invertRel at h
    cases htd : assocFind tds kv.1 with
    | none => rw [htd] at h; cases h
    | some tdrec =>
      rw [htd] at h
      dsimp only at h
      by_cases hinv : tdrec.inverse_of = ""
      · rw [if_pos hinv] at h
        exact ih a a' h j k v hr
      · rw [if_neg hinv] at h
        exact ih _ a' h j k v
          (foldl_relAddAt_relHas_mono tdrec.inverse_of i kv.2 a j k v hr)

theorem invertRel_establish (tds : List (String × TypeDef)) (i : Nat) :
    ∀ (rmap : List (String × List Nat)) (a a' : List Term),
      invertRel tds i rmap a = .ok a' →
      ∀ e ∈ rmap, ∀ td : TypeDef, assocFind tds e.1 = some td →
        td.inverse_of ≠ "" →
        ∀ tgt ∈ e.2, (∃ t, a.get? tgt = some t) →
        RelHas a' tgt td.inverse_of i := by
  intro rmap
  induction rmap with
  | nil => intro a a' _ e he; cases he
  | cons kv rest ih =>
    intro a a' h e he td htd hinv tgt htgt hval
    unfold invertRel at h
    rcases List.mem_cons.mp he with rfl | he'
    · rw [htd] at h
      dsimp only at h
      rw [if_neg hinv] at h
      exact invertRel_relHas_mono tds i rest _ a' h tgt td.inverse_of i
        (foldl_relAddAt_establish td.inverse_of i e.2 a tgt htgt hval)
    · cases htd0 : assocFind tds kv.1 with
      | none => rw [htd0] at h; cases h
      | some tdrec0 =>
        rw [htd0] at h
        dsimp only at h
        by_cases hinv0 : tdrec0.inverse_of = ""
        · rw [if_pos hinv0] at h
          exact ih a a' h e he' td htd hinv tgt htgt hval
        · rw [if_neg hinv0] at h
          refine ih _ a' h e he' td htd hinv tgt htgt ?_
          exact isSome_of_projStable
            (foldl_relAddAt_stable tdrec0.inverse_of i kv.2 a) hval

/-! ## Sub-step specifications of the second assembly pass -/

theorem phase2Children_spec (a : List Term) (i : Nat) (t : Term) :
    projStable exceptCh a (phase2Children a i t) ∧
    (NodupCh a → NodupCh (phase2Children a i t)) ∧
    (∀ p c, childHas a p c → childHas (phase2Children a i t) p c) ∧
    (∀ p ∈ t.parents, (∃ tp, a.get? p = some tp) →
      childHas (phase2Children a i t) p i) :=
  ⟨foldl_addChild_stable i t.parents a,
   foldl_addChild_nodup i t.parents a,
   fun p c => foldl_addChild_childHas_mono i t.parents a p c,
   fun p hp hv => foldl_addChild_establish i t.parents a p hp hv⟩

theorem phase2Invert_spec (tds : List (String × TypeDef)) (i : Nat)
    (a1 : List Term) (t1 : Term) (a2 : List Term)
    (h : phase2Invert tds i a1 t1 = .ok a2) :
    projStable exceptRel a1 a2 ∧
    (∀ j k v, RelHas a1 j k v → RelHas a2 j k v) ∧
    (∀ (A B : String) (td : TypeDef) (iy : Nat),
      assocFind tds A = some td → td.inverse_of = B → B ≠ "" →
      (∃ m e, t1.rel = some m ∧ e ∈ m ∧ e.1 = A ∧ iy ∈ e.2) →
      (∃ tY, a1.get? iy = some tY) → RelHas a2 iy B i) := by
  unfold phase2Invert at h
  cases hr : t1.rel with
  | none =>
    rw [hr] at h
    cases h
    refine ⟨projStable_refl _ _, fun j k v hv => hv, ?_⟩
    rintro A B td iy _ _ _ ⟨m, e, hm, _⟩ _
    cases hm
  | some rmap =>
    rw [hr] at h
    dsimp only at h
    refine ⟨invertRel_stable tds i rmap a1 a2 h,
      invertRel_relHas_mono tds i rmap a1 a2 h, ?_⟩
    rintro A B td iy htd hB hBne ⟨m, e, hm, hem, hek, hiy⟩ hval
    cases hm
    subst hB
    exact invertRel_establish tds i rmap a1 a2 h e hem td (by rw [hek]; exact htd)
      hBne iy hiy hval

theorem phase2Level_spec (fuel : Nat) (a2 : List Term) (i : Nat) (t2 : Term)
    (a3 : List Term) (h : phase2Level fuel a2 i t2 = .ok a3)
    (hg : a2.get? i = some t2) :
    projStable exceptLv a2 a3 ∧ levelKeeps a2 a3 ∧
    (RootZeroLv a2 → RootZeroLv a3) ∧
    (∃ t', a3.get? i = some t' ∧ t'.level.isSome) ∧
    (t2.level.isSome → a3 = a2) := by
  unfold phase2Level at h
  by_cases hl : t2.level = none
  · rw [if_pos hl] at h
    cases h1 : init_level fuel a2 i with
    | error e => rw [h1] at h; cases h
    | ok av =>
      obtain ⟨x, v⟩ := av
      rw [h1] at h
      cases h
      have s := init_level_spec fuel a2 i a3 v h1
      obtain ⟨t', ht', hlv⟩ := s.2.2.2
      refine ⟨s.1, s.2.1, s.2.2.1, ⟨t', ht', by rw [hlv]; rfl⟩, ?_⟩
      intro hsome
      rw [hl] at hsome
      cases hsome
  · rw [if_neg hl] at h
    cases h
    exact ⟨projStable_refl _ _, levelKeeps_refl _, id,
      ⟨t2, hg, Option.ne_none_iff_isSome.mp hl⟩, fun _ => rfl⟩

theorem phase2Depth_spec (fuel : Nat) (a3 : List Term) (i : Nat) (t3 : Term)
    (a' : List Term) (h : phase2Depth fuel a3 i t3 = .ok a')
    (hg : a3.get? i = some t3) :
    projStable exceptDp a3 a' ∧ depthKeeps a3 a' ∧
    (RootZeroDp a3 → RootZeroDp a') ∧
    (∃ t', a'.get? i = some t' ∧ t'.depth.isSome) ∧
    (t3.depth.isSome → a' = a3) := by
  unfold phase2Depth at h
  by_cases hl : t3.depth = none
  · rw [if_pos hl] at h
    cases h1 : init_depth fuel a3 i with
    | error e => rw [h1] at h; cases h
    | ok av =>
      obtain ⟨x, v⟩ := av
      rw [h1] at h
      cases h
      have s := init_depth_spec fuel a3 i a' v h1
      obtain ⟨t', ht', hlv⟩ := s.2.2.2
      refine ⟨s.1, s.2.1, s.2.2.1, ⟨t', ht', by rw [hlv]; rfl⟩, ?_⟩
      intro hsome
      rw [hl] at hsome
      cases hsome
  · rw [if_neg hl] at h
    cases h
    exact ⟨projStable_refl _ _, depthKeeps_refl _, id,
      ⟨t3, hg, Option.ne_none_iff_isSome.mp hl⟩, fun _ => rfl⟩

/-! ## Composite specification of `phase2One` -/

theorem phase2One_spec (tds : List (String × TypeDef)) (fuel : Nat)
    (a : List Term) (i : Nat) (a' : List Term)
    (h : phase2One tds fuel a i = .ok a') :
    levelKeeps a a' ∧ depthKeeps a a' ∧
    (RootZeroLv a → RootZeroLv a') ∧ (RootZeroDp a → RootZeroDp a') ∧
    projStable (fun t => t.parents) a a' ∧
    (NodupCh a → NodupCh a') ∧
    (∀ p c, childHas a p c → childHas a' p c) ∧
    (∀ j k v, RelHas a j k v → RelHas a' j k v) ∧
    (∃ t', a'.get? i = some t' ∧ t'.level.isSome ∧ t'.depth.isSome) ∧
    (∀ tI, a.get? i = some tI → ∀ p ∈ tI.parents,
      (∃ tp, a.get? p = some tp) → childHas a' p i) ∧
    (∀ (A B : String) (td : TypeDef) (iy : Nat),
      assocFind tds A = some td → td.inverse_of = B → B ≠ "" →
      (∃ tI m e, a.get? i = some tI ∧ tI.rel = some m ∧ e ∈ m ∧ e.1 = A ∧ iy ∈ e.2) →
      (∃ tY, a.get? iy = some tY) → RelHas a' iy B i) ∧
    ((∃ tI, a.get? i = some tI ∧ tI.level.isSome ∧ tI.depth.isSome) →
      projStable (fun t => (t.level, t.depth)) a a') := by
  unfold phase2One at h
  cases hg : a.get? i with
  | none => rw [hg] at h; cases h
  | some t =>
    rw [hg] at h
    dsimp only at h
    cases hg1 : (phase2Children a i t).get? i with
    | none => rw [hg1] at h; cases h
    | some t1 =>
      rw [hg1] at h
      dsimp only at h
      cases hInv : phase2Invert tds i (phase2Children a i t) t1 with
      | error e => rw [hInv] at h; cases h
      | ok a2 =>
        rw [hInv] at h
        dsimp only at h
        cases hg2 : a2.get? i with
        | none => rw [hg2] at h; cases h
        | some t2 =>
          rw [hg2] at h
          dsimp only at h
          cases hLv : phase2Level fuel a2 i t2 with
          | error e => rw [hLv] at h; cases h
          | ok a3 =>
            rw [hLv] at h
            dsimp only at h
            cases hg3 : a3.get? i with
            | none => rw [hg3] at h; cases h
            | some t3 =>
              rw [hg3] at h
              have S1 := phase2Children_spec a i t
              have S2 := phase2Invert_spec tds i _ t1 a2 hInv
              have S3 := phase2Level_spec fuel a2 i t2 a3 hLv hg2
              have S4 := phase2Depth_spec fuel a3 i t3 a' h hg3
              -- derived per-step stabilities
              have lv1 : projStable (fun t => t.level) a (phase2Children a i t) :=
                projStable_mono (fun _ _ hh => exceptCh_eq_level hh) S1.1
              have lv2 : projStable (fun t => t.level) (phase2Children a i t) a2 :=
                projStable_mono (fun _ _ hh => exceptRel_eq_level hh) S2.1
              have lv4 : projStable (fun t => t.level) a3 a' :=
                projStable_mono (fun _ _ hh => exceptDp_eq_level hh) S4.1
              have dp1 : projStable (fun t => t.depth) a (phase2Children a i t) :=
                projStable_mono (fun _ _ hh => exceptCh_eq_depth hh) S1.1
              have dp2 : projStable (fun t => t.depth) (phase2Children a i t) a2 :=
                projStable_mono (fun _ _ hh => exceptRel_eq_depth hh) S2.1
              have dp3 : projStable (fun t => t.depth) a2 a3 :=
                projStable_mono (fun _ _ hh => exceptLv_eq_depth hh) S3.1
              have pa1 : projStable (fun t => t.parents) a (phase2Children a i t) :=
                projStable_mono (fun _ _ hh => exceptCh_eq_parents hh) S1.1
              have pa2 : projStable (fun t => t.parents) (phase2Children a i t) a2 :=
                projStable_mono (fun _ _ hh => exceptRel_eq_parents hh) S2.1
              have pa3 : projStable (fun t => t.parents) a2 a3 :=
                projStable_mono (fun _ _ hh => exceptLv_eq_parents hh) S3.1
              have pa4 : projStable (fun t => t.parents) a3 a' :=
                projStable_mono (fun _ _ hh => exceptDp_eq_parents hh) S4.1
              have ch2 : projStable (fun t => t.children) (phase2Children a i t) a2 :=
                projStable_mono (fun _ _ hh => exceptRel_eq_children hh) S2.1
              have ch3 : projStable (fun t => t.children) a2 a3 :=
                projStable_mono (fun _ _ hh => exceptLv_eq_children hh) S3.1
              have ch4 : projStable (fun t => t.children) a3 a' :=
                projStable_mono (fun _ _ hh => exceptDp_eq_children hh) S4.1
              have rl1 : projStable (fun t => t.rel) a (phase2Children a i t) :=
                projStable_mono (fun _ _ hh => exceptCh_eq_rel hh) S1.1
              have rl3 : projStable (fun t => t.rel) a2 a3 :=
                projStable_mono (fun _ _ hh => exceptLv_eq_rel hh) S3.1
              have rl4 : projStable (fun t => t.rel) a3 a' :=
                projStable_mono (fun _ _ hh => exceptDp_eq_rel hh) S4.1
              have plv1 : projStable (fun t => (t.parents, t.level)) a (phase2Children a i t) :=
                projStable_mono (fun _ _ hh => by
                  rw [Prod.mk.injEq]
                  exact ⟨exceptCh_eq_parents hh, exceptCh_eq_level hh⟩) S1.1
              have plv2 : projStable (fun t => (t.parents, t.level)) (phase2Children a i t) a2 :=
                projStable_mono (fun _ _ hh => by
                  rw [Prod.mk.injEq]
                  exact ⟨exceptRel_eq_parents hh, exceptRel_eq_level hh⟩) S2.1
              have plv4 : projStable (fun t => (t.parents, t.level)) a3 a' :=
                projStable_mono (fun _ _ hh => by
                  rw [Prod.mk.injEq]
                  exact ⟨exceptDp_eq_parents hh, exceptDp_eq_level hh⟩) S4.1
              have pdp1 : projStable (fun t => (t.parents, t.depth)) a (phase2Children a i t) :=
                projStable_mono (fun _ _ hh => by
                  rw [Prod.mk.injEq]
                  exact ⟨exceptCh_eq_parents hh, exceptCh_eq_depth hh⟩) S1.1
              have pdp2 : projStable (fun t => (t.parents, t.depth)) (phase2Children a i t) a2 :=
                projStable_mono (fun _ _ hh => by
                  rw [Prod.mk.injEq]
                  exact ⟨exceptRel_eq_parents hh, exceptRel_eq_depth hh⟩) S2.1
              have pdp3 : projStable (fun t => (t.parents, t.depth)) a2 a3 :=
                projStable_mono (fun _ _ hh => by
                  rw [Prod.mk.injEq]
                  exact ⟨exceptLv_eq_parents hh, exceptLv_eq_depth hh⟩) S3.1
              refine ⟨?_, ?_, ?_, ?_, ?_, ?_, ?_, ?_, ?_, ?_, ?_, ?_⟩
              · exact levelKeeps_trans (levelKeeps_of_stable (projStable_trans lv1 lv2))
                  (levelKeeps_trans S3.2.1 (levelKeeps_of_stable lv4))
              · exact depthKeeps_trans
                  (depthKeeps_of_stable (projStable_trans (projStable_trans dp1 dp2) dp3))
                  S4.2.1
              · intro hrz
                exact rootZeroLv_of_stable plv4
                  (S3.2.2.1 (rootZeroLv_of_stable plv2 (rootZeroLv_of_stable plv1 hrz)))
              · intro hrz
                exact S4.2.2.1 (rootZeroDp_of_stable pdp3
                  (rootZeroDp_of_stable pdp2 (rootZeroDp_of_stable pdp1 hrz)))
              · exact projStable_trans (projStable_trans pa1 pa2) (projStable_trans pa3 pa4)
              · intro hnd
                exact nodupCh_of_chStable ch4 (nodupCh_of_chStable ch3
                  (nodupCh_of_chStable ch2 (S1.2.1 hnd)))
              · intro p c hpc
                exact childHas_of_chStable ch4 p c (childHas_of_chStable ch3 p c
                  (childHas_of_chStable ch2 p c (S1.2.2.1 p c hpc)))
              · intro j k v hv
                exact relHas_of_relStable rl4 j k v (relHas_of_relStable rl3 j k v
                  (S2.2.1 j k v (relHas_of_relStable rl1 j k v hv)))
              · obtain ⟨tL, hL, hLsome⟩ := S3.2.2.2.1
                obtain ⟨tL', hL', hLv'⟩ := projStable_some lv4 hL
                obtain ⟨tD, hD, hDsome⟩ := S4.2.2.2.1
                have heq : tL' = tD := by
                  rw [hL'] at hD
                  exact Option.some.inj hD
                subst heq
                exact ⟨tL', hL', by rw [hLv']; exact hLsome, hDsome⟩
              · intro tI hgI p hp hval
                have htI : tI = t := (Option.some.inj hgI).symm
                have h1 := S1.2.2.2 p (htI ▸ hp) hval
                exact childHas_of_chStable ch4 p i (childHas_of_chStable ch3 p i
                  (childHas_of_chStable ch2 p i h1))
              · rintro A B td iy htd hB hBne ⟨tI, m, e, hgI, hm, hem, hek, hiy⟩ hval
                have htI : tI = t := (Option.some.inj hgI).symm
                obtain ⟨t1', hg1', he1⟩ := projStable_some S1.1 hg
                rw [hg1] at hg1'
                cases hg1'
                have hrel1 : t1.rel = some m := by
                  rw [exceptCh_eq_rel he1, ← htI]
                  exact hm
                have hest := S2.2.2 A B td iy htd hB hBne
                  ⟨m, e, hrel1, hem, hek, hiy⟩
                  (isSome_of_projStable S1.1 hval)
                exact relHas_of_relStable rl4 iy B i
                  (relHas_of_relStable rl3 iy B i hest)
              · rintro ⟨tI, hgI, hlvI, hdpI⟩
                have htI : tI = t := (Option.some.inj hgI).symm
                obtain ⟨t2', hg2', he2⟩ :=
                  projStable_some (projStable_trans lv1 lv2) hg
                rw [hg2] at hg2'
                cases hg2'
                have ha32 : a3 = a2 := S3.2.2.2.2 (by rw [he2, ← htI]; exact hlvI)
                subst ha32
                obtain ⟨t3', hg3', he3⟩ :=
                  projStable_some (projStable_trans dp1 dp2) hg
                rw [hg3] at hg3'
                cases hg3'
                have ha43 : a' = a3 := S4.2.2.2.2 (by rw [he3, ← htI]; exact hdpI)
                subst ha43
                refine projStable_trans
                  (projStable_mono (fun _ _ hh => by
                    rw [Prod.mk.injEq]
                    exact ⟨exceptCh_eq_level hh, exceptCh_eq_depth hh⟩) S1.1)
                  (projStable_mono (fun _ _ hh => by
                    rw [Prod.mk.injEq]
                    exact ⟨exceptRel_eq_level hh, exceptRel_eq_depth hh⟩) S2.1)

/-! ## First-pass (resolution) specification -/

theorem projStable_some_rev {γ : Type} {proj : Term → γ} {a b : List Term}
    (h : projStable proj a b) {j : Nat} {t' : Term} (hj : b.get? j = some t') :
    ∃ t, a.get? j = some t ∧ proj t = proj t' := by
  have hj' := h j
  rw [hj] at hj'
  cases ha : a.get? j <;> rw [ha] at hj' <;>
    simp only [Option.map_none', Option.map_some'] at hj'
  · cases hj'
  · exact ⟨_, rfl, Option.some.inj hj'⟩

theorem resolveOne_spec (dict : List (String × Nat)) (a : List Term) (i : Nat)
    (a' : List Term) (h : resolveOne dict a i = .ok a') :
    projStable (fun t => (t.level, t.depth)) a a' ∧
    projStable (fun t => t.children) a a' ∧
    (∀ j, j ≠ i → a'.get? j = a.get? j) := by
  unfold resolveOne at h
  cases hg : a.get? i with
  | none => rw [hg] at h; cases h
  | some t =>
    rw [hg] at h
    dsimp only at h
    cases h1 : lookupIds dict t.parentsRaw with
    | error e => rw [h1] at h; cases h
    | ok ps =>
      rw [h1] at h
      dsimp only at h
      cases hr : t.relRaw with
      | none =>
        rw [hr] at h
        cases h
        exact ⟨projStable_set a i t _ hg rfl, projStable_set a i t _ hg rfl,
          fun j hj => List.get?_set_ne _ _ (fun hh => hj hh.symm)⟩
      | some rmap =>
        rw [hr] at h
        dsimp only at h
        cases h2 : resolveRel dict rmap with
        | error e => rw [h2] at h; cases h
        | ok rl =>
          rw [h2] at h
          cases h
          exact ⟨projStable_set a i t _ hg rfl, projStable_set a i t _ hg rfl,
            fun j hj => List.get?_set_ne _ _ (fun hh => hj hh.symm)⟩

/-! ## Claim C1 -/

/-- C1: after `populate_terms` on a freshly parsed graph (all levels and
depths unset), every record reachable through the identifier index whose
resolved parents list is empty ends with `level = some 0` and
`depth = some 0` — in particular an isolated record with no parents that is
nobody's parent. -/
theorem c1_roots_level_depth_zero (tds : List (String × TypeDef))
    (a0 : List Term) (dict : List (String × Nat)) (a' : List Term)
    (hfresh : ∀ t ∈ a0, t.level = none ∧ t.depth = none)
    (hok : populate_terms tds a0 dict = .ok a')
    (i : Nat) (hi : i ∈ dagValues dict) (t : Term) (ht : a'.get? i = some t)
    (hroot : t.parents = []) :
    t.level = some 0 ∧ t.depth = some 0 := by
  unfold populate_terms at hok
  cases h1 : exceptFoldList (resolveOne dict) a0 (dagValues dict) with
  | error e => rw [h1] at hok; cases hok
  | ok a1 =>
    rw [h1] at hok
    dsimp only at hok
    have hall : ∀ j u, a1.get? j = some u → u.level = none ∧ u.depth = none := by
      refine exceptFoldList_ok_preserve
        (P := fun x => ∀ j u, x.get? j = some u → u.level = none ∧ u.depth = none)
        (resolveOne dict) (dagValues dict) a0 a1 h1 ?_ ?_
      · intro x _ c c' hstep hP j u hu
        obtain ⟨u0, hu0, he⟩ :=
          projStable_some_rev (resolveOne_spec dict c x c' hstep).1 hu
        obtain ⟨h1', h2'⟩ := Prod.mk.injEq .. ▸ he
        exact ⟨h1'.symm.trans (hP j u0 hu0).1, h2'.symm.trans (hP j u0 hu0).2⟩
      · intro j u hu
        exact hfresh u (List.get?_mem hu)
    have hq0 : RootZeroLv a1 ∧ RootZeroDp a1 :=
      ⟨fun j u hu _ => Or.inl (hall j u hu).1,
       fun j u hu _ => Or.inl (hall j u hu).2⟩
    have hfinal :
        ((∃ t', a'.get? i = some t' ∧ t'.level.isSome ∧ t'.depth.isSome) ∧
          (RootZeroLv a' ∧ RootZeroDp a')) := by
      refine exceptFoldList_ok_establish
        (P := fun x => (∃ t', x.get? i = some t' ∧ t'.level.isSome ∧ t'.depth.isSome) ∧
          (RootZeroLv x ∧ RootZeroDp x))
        (Q := fun x => RootZeroLv x ∧ RootZeroDp x)
        (phase2One tds (a0.length + 1)) (dagValues dict) a1 a' hok i hi
        ?_ ?_ ?_ hq0
      · intro c c' hstep hQ
        have s := phase2One_spec tds (a0.length + 1) c i c' hstep
        exact ⟨s.2.2.2.2.2.2.2.2.1, s.2.2.1 hQ.1, s.2.2.2.1 hQ.2⟩
      · intro x _ c c' hstep hQ
        have s := phase2One_spec tds (a0.length + 1) c x c' hstep
        exact ⟨s.2.2.1 hQ.1, s.2.2.2.1 hQ.2⟩
      · intro x _ c c' hstep hP
        have s := phase2One_spec tds (a0.length + 1) c x c' hstep
        obtain ⟨⟨u, hu, hlv, hdp⟩, hrz⟩ := hP
        obtain ⟨lv, hlv'⟩ := Option.isSome_iff_exists.mp hlv
        obtain ⟨dp, hdp'⟩ := Option.isSome_iff_exists.mp hdp
        obtain ⟨u1, hu1, hul⟩ := s.1 i u lv hu hlv'
        obtain ⟨u2, hu2, hud⟩ := s.2.1 i u dp hu hdp'
        rw [hu1] at hu2
        cases hu2
        refine ⟨⟨u1, hu1, by rw [hul]; rfl, by rw [hud]; rfl⟩,
          s.2.2.1 hrz.1, s.2.2.2.1 hrz.2⟩
    obtain ⟨⟨t', ht', hlv, hdp⟩, hrzL, hrzD⟩ := hfinal
    rw [ht] at ht'
    cases ht'
    constructor
    · rcases hrzL i t ht hroot with hnone | hzero
      · rw [hnone] at hlv; cases hlv
      · exact hzero
    · rcases hrzD i t ht hroot with hnone | hzero
      · rw [hnone] at hdp; cases hdp
      · exact hzero

/-- Witness for C1 at an isolated record: a graph with one record that has
no parents and is nobody's parent assembles it to level 0 and depth 0. -/
theorem c1_roots_level_depth_zero_witness :
    ({ id := "GO:1", level := some 0, depth := some 0 } : Term).level = some 0 ∧
    ({ id := "GO:1", level := some 0, depth := some 0 } : Term).depth = some 0 :=
  c1_roots_level_depth_zero [] [{ id := "GO:1" }] [("GO:1", 0)]
    [{ id := "GO:1", level := some 0, depth := some 0 }]
    (by decide) rfl 0 (by decide) _ rfl rfl

/-! ## Claim C8 -/

/-- C8: running `populate_terms` on a graph whose levels and depths are all
already computed leaves every record's level and depth unchanged — the
metric pass is guarded by `if rec.level is None` / `if rec.depth is None`
and the other passes never touch these fields. -/
theorem c8_populate_idempotent (tds : List (String × TypeDef)) (a : List Term)
    (dict : List (String × Nat)) (a' : List Term)
    (hset : ∀ t ∈ a, t.level.isSome ∧ t.depth.isSome)
    (hok : populate_terms tds a dict = .ok a') :
    ∀ j, (a'.get? j).map (fun t => (t.level, t.depth)) =
      (a.get? j).map (fun t => (t.level, t.depth)) := by
  unfold populate_terms at hok
  cases h1 : exceptFoldList (resolveOne dict) a (dagValues dict) with
  | error e => rw [h1] at hok; cases hok
  | ok a1 =>
    rw [h1] at hok
    dsimp only at hok
    have hs1 : projStable (fun t => (t.level, t.depth)) a a1 := by
      refine exceptFoldList_ok_preserve
        (P := fun x => projStable (fun t => (t.level, t.depth)) a x)
        (resolveOne dict) (dagValues dict) a a1 h1 ?_ (projStable_refl _ _)
      intro x _ c c' hstep hP
      exact projStable_trans hP (resolveOne_spec dict c x c' hstep).1
    have hs2 : projStable (fun t => (t.level, t.depth)) a a' := by
      refine exceptFoldList_ok_preserve
        (P := fun x => projStable (fun t => (t.level, t.depth)) a x)
        (phase2One tds (a.length + 1)) (dagValues dict) a1 a' hok ?_ hs1
      intro x _ c c' hstep hP
      have s := phase2One_spec tds (a.length + 1) c x c' hstep
      obtain ⟨t', ht', _, _⟩ := s.2.2.2.2.2.2.2.2.1
      obtain ⟨u, hu, _⟩ := projStable_some_rev s.2.2.2.2.1 ht'
      obtain ⟨u0, hu0, he⟩ := projStable_some_rev hP hu
      obtain ⟨hel, hed⟩ := Prod.mk.injEq .. ▸ he
      obtain ⟨h0l, h0d⟩ := hset u0 (List.get?_mem hu0)
      refine projStable_trans hP (s.2.2.2.2.2.2.2.2.2.2.2 ⟨u, hu, ?_, ?_⟩)
      · rw [← hel]; exact h0l
      · rw [← hed]; exact h0d
    intro j
    exact (hs2 j).symm

/-- Witness for C8: re-running the assembly on an already-assembled
two-record graph leaves both records' levels and depths unchanged (the
second run reproduces the input arena, so the projection equality below is
an instance of the theorem with every hypothesis discharged). -/
theorem c8_populate_idempotent_witness :
    Option.map (fun t : Term => (t.level, t.depth))
        (([{ id := "GO:1", children := [1], level := some 0, depth := some 0 },
           { id := "GO:2", parentsRaw := ["GO:1"], parents := [0],
             level := some 1, depth := some 1 }] : List Term).get? 1) =
      Option.map (fun t : Term => (t.level, t.depth))
        (([{ id := "GO:1", children := [1], level := some 0, depth := some 0 },
           { id := "GO:2", parentsRaw := ["GO:1"], parents := [0],
             level := some 1, depth := some 1 }] : List Term).get? 1) :=
  c8_populate_idempotent []
    [{ id := "GO:1", children := [1], level := some 0, depth := some 0 },
     { id := "GO:2", parentsRaw := ["GO:1"], parents := [0], level := some 1, depth := some 1 }]
    [("GO:1", 0), ("GO:2", 1)]
    [{ id := "GO:1", children := [1], level := some 0, depth := some 0 },
     { id := "GO:2", parentsRaw := ["GO:1"], parents := [0], level := some 1, depth := some 1 }]
    (by decide) rfl 1

/-! ## Claim C3 -/

/-- C3: after assembly from freshly parsed records (all children lists
empty), every record reachable through the identifier index appears exactly
once in the children list of each of its resolved parents — even when the
raw parent-identifier list mentions the same parent several times, the
`if rec not in parent.children` guard prevents a second registration. -/
theorem c3_child_registered_once (tds : List (String × TypeDef))
    (a0 : List Term) (dict : List (String × Nat)) (a' : List Term)
    (hchild : ∀ t ∈ a0, t.children = [])
    (hok : populate_terms tds a0 dict = .ok a')
    (i : Nat) (hi : i ∈ dagValues dict) (t : Term) (ht : a'.get? i = some t)
    (p : Nat) (hp : p ∈ t.parents) (pt : Term) (hpt : a'.get? p = some pt) :
    pt.children.count i = 1 := by
  unfold populate_terms at hok
  cases h1 : exceptFoldList (resolveOne dict) a0 (dagValues dict) with
  | error e => rw [h1] at hok; cases hok
  | ok a1 =>
    rw [h1] at hok
    dsimp only at hok
    have hnd1 : NodupCh a1 := by
      refine exceptFoldList_ok_preserve (P := NodupCh)
        (resolveOne dict) (dagValues dict) a0 a1 h1 ?_ ?_
      · intro x _ c c' hstep hP
        exact nodupCh_of_chStable (resolveOne_spec dict c x c' hstep).2.1 hP
      · intro j u hu
        rw [hchild u (List.get?_mem hu)]
        exact List.nodup_nil
    have hfinal : NodupCh a' ∧
        (∀ tI, a'.get? i = some tI → ∀ q ∈ tI.parents,
          (∃ u, a'.get? q = some u) → childHas a' q i) := by
      refine exceptFoldList_ok_establish
        (P := fun x => NodupCh x ∧
          (∀ tI, x.get? i = some tI → ∀ q ∈ tI.parents,
            (∃ u, x.get? q = some u) → childHas x q i))
        (Q := NodupCh)
        (phase2One tds (a0.length + 1)) (dagValues dict) a1 a' hok i hi
        ?_ ?_ ?_ hnd1
      · intro c c' hstep hQ
        have s := phase2One_spec tds (a0.length + 1) c i c' hstep
        refine ⟨s.2.2.2.2.2.1 hQ, ?_⟩
        intro tI' htI' q hq hval
        obtain ⟨tIc, htIc, hpe⟩ := projStable_some_rev s.2.2.2.2.1 htI'
        obtain ⟨u', hu'⟩ := hval
        obtain ⟨u, hu, _⟩ := projStable_some_rev s.2.2.2.2.1 hu'
        exact s.2.2.2.2.2.2.2.2.2.1 tIc htIc q (by rw [hpe]; exact hq) ⟨u, hu⟩
      · intro x _ c c' hstep hQ
        exact (phase2One_spec tds (a0.length + 1) c x c' hstep).2.2.2.2.2.1 hQ
      · intro x _ c c' hstep hP
        have s := phase2One_spec tds (a0.length + 1) c x c' hstep
        refine ⟨s.2.2.2.2.2.1 hP.1, ?_⟩
        intro tI' htI' q hq hval
        obtain ⟨tIc, htIc, hpe⟩ := projStable_some_rev s.2.2.2.2.1 htI'
        obtain ⟨u', hu'⟩ := hval
        obtain ⟨u, hu, _⟩ := projStable_some_rev s.2.2.2.2.1 hu'
        exact s.2.2.2.2.2.2.1 q i
          (hP.2 tIc htIc q (by rw [hpe]; exact hq) ⟨u, hu⟩)
    obtain ⟨hnd, hch⟩ := hfinal
    obtain ⟨u, hu, hmem⟩ := hch t ht p hp ⟨pt, hpt⟩
    rw [hpt] at hu
    cases hu
    exact List.count_eq_one_of_mem (hnd p pt hpt) hmem

/-- Witness for C3: in the assembled two-record graph the child appears
exactly once in its parent's children list. -/
theorem c3_child_registered_once_witness :
    (({ id := "GO:1", children := [1], level := some 0, depth := some 0 } : Term).children.count 1) = 1 :=
  c3_child_registered_once [] [{ id := "GO:1" }, { id := "GO:2", parentsRaw := ["GO:1"] }]
    [("GO:1", 0), ("GO:2", 1)]
    [{ id := "GO:1", children := [1], level := some 0, depth := some 0 },
     { id := "GO:2", parentsRaw := ["GO:1"], parents := [0], level := some 1, depth := some 1 }]
    (by decide) rfl 1 (by decide)
    { id := "GO:2", parentsRaw := ["GO:1"], parents := [0], level := some 1, depth := some 1 }
    rfl 0 (by decide)
    { id := "GO:1", children := [1], level := some 0, depth := some 0 } rfl

/-! ## Claim C5: relationship inversion -/

theorem dedupKeepFirst_mem_aux (x : Nat) :
    ∀ (l acc : List Nat), (x ∈ acc ∨ x ∈ l) →
      x ∈ l.foldl (fun acc y => if y ∈ acc then acc else acc ++ [y]) acc := by
  intro l
  induction l with
  | nil =>
    intro acc h
    rcases h with h | h
    · exact h
    · cases h
  | cons y ys ih =>
    intro acc h
    simp only [List.foldl_cons]
    apply ih
    by_cases hy : y ∈ acc
    · rw [if_pos hy]
      rcases h with h | h
      · exact Or.inl h
      · rcases List.mem_cons.mp h with rfl | h'
        · exact Or.inl hy
        · exact Or.inr h'
    · rw [if_neg hy]
      rcases h with h | h
      · exact Or.inl (List.mem_append_left _ h)
      · rcases List.mem_cons.mp h with rfl | h'
        · exact Or.inl (List.mem_append_right _ (List.mem_singleton_self x))
        · exact Or.inr h'

theorem mem_dedupKeepFirst (l : List Nat) (x : Nat) (h : x ∈ l) :
    x ∈ dedupKeepFirst l :=
  dedupKeepFirst_mem_aux x l [] (Or.inr h)

theorem lookupIds_mem (dict : List (String × Nat)) :
    ∀ (ss : List String) (js : List Nat), lookupIds dict ss = .ok js →
      ∀ s ∈ ss, ∀ j, assocFind dict s = some j → j ∈ js := by
  intro ss
  induction ss with
  | nil => intro js _ s hs; cases hs
  | cons s0 rest ih =>
    intro js h s hs j hj
    unfold lookupIds at h
    cases hf : assocFind dict s0 with
    | none => rw [hf] at h; cases h
    | some j0 =>
      rw [hf] at h
      dsimp only at h
      cases h2 : lookupIds dict rest with
      | error e => rw [h2] at h; cases h
      | ok js0 =>
        rw [h2] at h
        cases h
        rcases List.mem_cons.mp hs with rfl | hs'
        · rw [hf] at hj
          cases hj
          exact List.mem_cons_self _ _
        · exact List.mem_cons_of_mem _ (ih js0 h2 s hs' j hj)

theorem resolveRel_mem (dict : List (String × Nat)) :
    ∀ (rmap : List (String × List String)) (rl : List (String × List Nat)),
      resolveRel dict rmap = .ok rl →
      ∀ kv ∈ rmap, ∃ js, lookupIds dict kv.2 = .ok js ∧
        (kv.1, dedupKeepFirst js) ∈ rl := by
  intro rmap
  induction rmap with
  | nil => intro rl _ kv hkv; cases hkv
  | cons kv0 rest ih =>
    intro rl h kv hkv
    unfold resolveRel at h
    cases h1 : lookupIds dict kv0.2 with
    | error e => rw [h1] at h; cases h
    | ok js0 =>
      rw [h1] at h
      dsimp only at h
      cases h2 : resolveRel dict rest with
      | error e => rw [h2] at h; cases h
      | ok rl0 =>
        rw [h2] at h
        cases h
        rcases List.mem_cons.mp hkv with rfl | hkv'
        · exact ⟨js0, h1, List.mem_cons_self _ _⟩
        · obtain ⟨js, hjs, hmem⟩ := ih rl0 h2 kv hkv'
          exact ⟨js, hjs, List.mem_cons_of_mem _ hmem⟩

/-- Record `ix` still carries its raw `_relationship` attribute `rmapX`. -/
def RelPending (rmapX : List (String × List String)) (x : List Term) (ix : Nat) : Prop :=
  ∃ tx, x.get? ix = some tx ∧ tx.relRaw = some rmapX

/-- Record `ix` has been resolved: `_relationship` deleted, and its
`relationship` map has an `A`-entry containing arena index `iy`. -/
def RelReady (A : String) (iy : Nat) (x : List Term) (ix : Nat) : Prop :=
  ∃ tx, x.get? ix = some tx ∧ tx.relRaw = none ∧
    ∃ m e, tx.rel = some m ∧ e ∈ m ∧ e.1 = A ∧ iy ∈ e.2

theorem resolveOne_rel_establish (dict : List (String × Nat))
    (A y : String) (iy : Nat) (ys : List String)
    (rmapX : List (String × List String))
    (hA : (A, ys) ∈ rmapX) (hy : y ∈ ys) (hiy : assocFind dict y = some iy)
    (ix : Nat) (c c' : List Term) (h : resolveOne dict c ix = .ok c')
    (hq : RelPending rmapX c ix ∨ RelReady A iy c ix) :
    RelReady A iy c' ix := by
  unfold resolveOne at h
  rcases hq with ⟨tx, hgx, hraw⟩ | ⟨tx, hgx, hraw, m, e, hm, hem, hek, hiym⟩
  · rw [hgx] at h
    dsimp only at h
    cases h1 : lookupIds dict tx.parentsRaw with
    | error e => rw [h1] at h; cases h
    | ok ps =>
      rw [h1] at h
      dsimp only at h
      rw [hraw] at h
      dsimp only at h
      cases h2 : resolveRel dict rmapX with
      | error e => rw [h2] at h; cases h
      | ok rl =>
        rw [h2] at h
        cases h
        obtain ⟨js, hjs, hmem⟩ := resolveRel_mem dict rmapX rl h2 (A, ys) hA
        refine ⟨_, get?_set_self' c ix tx _ hgx, rfl,
          rl, (A, dedupKeepFirst js), rfl, hmem, rfl, ?_⟩
        exact mem_dedupKeepFirst js iy (lookupIds_mem dict ys js hjs y hy iy hiy)
  · rw [hgx] at h
    dsimp only at h
    cases h1 : lookupIds dict tx.parentsRaw with
    | error e => rw [h1] at h; cases h
    | ok ps =>
      rw [h1] at h
      dsimp only at h
      rw [hraw] at h
      dsimp only at h
      cases h
      exact ⟨_, get?_set_self' c ix tx _ hgx, rfl, m, e, hm, hem, hek, hiym⟩

/-- Every index the second pass visits successfully was valid at the start
of the pass (an invalid index makes `phase2One` raise `badIndex`). -/
theorem phase2_fold_valid (tds : List (String × TypeDef)) (fuel : Nat) :
    ∀ (vals : List Nat) (x y : List Term),
      exceptFoldList (phase2One tds fuel) x vals = .ok y →
      ∀ k ∈ vals, ∃ u, x.get? k = some u := by
  intro vals
  induction vals with
  | nil => intro x y _ k hk; cases hk
  | cons v vs ih =>
    intro x y h k hk
    simp only [exceptFoldList] at h
    cases hfv : phase2One tds fuel x v with
    | error e => rw [hfv] at h; cases h
    | ok c =>
      rw [hfv] at h
      rcases List.mem_cons.mp hk with rfl | hk'
      · unfold phase2One at hfv
        cases hg : x.get? k with
        | none => rw [hg] at hfv; cases hfv
        | some u => exact ⟨u, rfl⟩
      · obtain ⟨u', hu'⟩ := ih c y h k hk'
        obtain ⟨u, hu, _⟩ :=
          projStable_some_rev (phase2One_spec tds fuel x v c hfv).2.2.2.2.1 hu'
        exact ⟨u, hu⟩

theorem assocFind_mem_values {α : Type} (d : List (String × α)) (k : String)
    (v : α) (h : assocFind d k = some v) : v ∈ d.map (fun kv => kv.2) := by
  unfold assocFind at h
  cases hf : d.find? (fun kv => kv.1 = k) with
  | none => rw [hf] at h; cases h
  | some kv =>
    rw [hf] at h
    cases h
    exact List.mem_map_of_mem _ (List.mem_of_find?_eq_some hf)

/-- C5: if the typedef table maps `A` to a typedef whose `inverse_of` is the
nonempty name `B`, record `ix` (reachable through the index) was parsed with
a raw relationship map containing `A → ys` with `y ∈ ys`, and `y` resolves
to arena index `iy`, then after a successful `populate_terms` the record at
`iy` has `ix` in its relationship map under key `B`. -/
theorem c5_relationship_inversion (tds : List (String × TypeDef))
    (a0 : List Term) (dict : List (String × Nat)) (a' : List Term)
    (hok : populate_terms tds a0 dict = .ok a')
    (A B : String) (td : TypeDef) (htd : assocFind tds A = some td)
    (hB : td.inverse_of = B) (hBne : B ≠ "")
    (ix : Nat) (hix : ix ∈ dagValues dict)
    (rmapX : List (String × List String)) (ys : List String) (y : String)
    (hA : (A, ys) ∈ rmapX) (hy : y ∈ ys)
    (iy : Nat) (hiy : assocFind dict y = some iy)
    (tx : Term) (hgx : a0.get? ix = some tx) (hrawx : tx.relRaw = some rmapX) :
    ∃ t' m e, a'.get? iy = some t' ∧ t'.rel = some m ∧ e ∈ m ∧
      e.1 = B ∧ ix ∈ e.2 := by
  unfold populate_terms at hok
  cases h1 : exceptFoldList (resolveOne dict) a0 (dagValues dict) with
  | error e => rw [h1] at hok; cases hok
  | ok a1 =>
    rw [h1] at hok
    dsimp only at hok
    have hready : RelReady A iy a1 ix := by
      refine exceptFoldList_ok_establish
        (P := fun x => RelReady A iy x ix)
        (Q := fun x => RelPending rmapX x ix ∨ RelReady A iy x ix)
        (resolveOne dict) (dagValues dict) a0 a1 h1 ix hix ?_ ?_ ?_
        (Or.inl ⟨tx, hgx, hrawx⟩)
      · intro c c' hstep hq
        exact resolveOne_rel_establish dict A y iy ys rmapX hA hy hiy ix c c' hstep hq
      · intro x _ c c' hstep hq
        by_cases hxi : x = ix
        · subst hxi
          exact Or.inr (resolveOne_rel_establish dict A y iy ys rmapX hA hy hiy x c c' hstep hq)
        · have hsame := (resolveOne_spec dict c x c' hstep).2.2 ix (fun hh => hxi hh.symm)
          rcases hq with ⟨tx0, hg0, hr0⟩ | ⟨tx0, hg0, hr0, m, e, hm, hem, hek, hiym⟩
          · exact Or.inl ⟨tx0, by rw [hsame]; exact hg0, hr0⟩
          · exact Or.inr ⟨tx0, by rw [hsame]; exact hg0, hr0, m, e, hm, hem, hek, hiym⟩
      · intro x _ c c' hstep hp
        by_cases hxi : x = ix
        · subst hxi
          exact resolveOne_rel_establish dict A y iy ys rmapX hA hy hiy x c c' hstep (Or.inr hp)
        · have hsame := (resolveOne_spec dict c x c' hstep).2.2 ix (fun hh => hxi hh.symm)
          obtain ⟨tx0, hg0, hr0, m, e, hm, hem, hek, hiym⟩ := hp
          exact ⟨tx0, by rw [hsame]; exact hg0, hr0, m, e, hm, hem, hek, hiym⟩
    have hvy : ∃ u, a1.get? iy = some u :=
      phase2_fold_valid tds (a0.length + 1) (dagValues dict) a1 a' hok iy
        (assocFind_mem_values dict y iy hiy)
    obtain ⟨tx1, hgx1, _, m1, e1, hm1, hem1, hek1, hiym1⟩ := hready
    have hfinal : RelHas a' iy B ix := by
      refine exceptFoldList_ok_establish
        (P := fun x => RelHas x iy B ix)
        (Q := fun x => RelHas x ix A iy ∧ (∃ u, x.get? iy = some u))
        (phase2One tds (a0.length + 1)) (dagValues dict) a1 a' hok ix hix
        ?_ ?_ ?_ ⟨⟨tx1, m1, e1, hgx1, hm1, hem1, hek1, hiym1⟩, hvy⟩
      · intro c c' hstep hq
        have s := phase2One_spec tds (a0.length + 1) c ix c' hstep
        exact s.2.2.2.2.2.2.2.2.2.2.1 A B td iy htd hB hBne hq.1 hq.2
      · intro x _ c c' hstep hq
        have s := phase2One_spec tds (a0.length + 1) c x c' hstep
        exact ⟨s.2.2.2.2.2.2.2.1 ix A iy hq.1,
          isSome_of_projStable s.2.2.2.2.1 hq.2⟩
      · intro x _ c c' hstep hp
        exact (phase2One_spec tds (a0.length + 1) c x c' hstep).2.2.2.2.2.2.2.1
          iy B ix hp
    obtain ⟨t', m, e, hgt, hm, hem, hek, hmem⟩ := hfinal
    exact ⟨t', m, e, hgt, hm, hem, hek, hmem⟩

/-- Witness for C5: a `part_of`/`has_part` typedef pair and a record `x`
parsed with `relationship: part_of y`; after assembly the record `y` holds
`x` under the inverse key `has_part`. -/
theorem c5_relationship_inversion_witness :
    ∃ t' m e,
      (([{ id := "x", relRaw := none, rel := some [("part_of", [1])],
           level := some 0, depth := some 0 },
         { id := "y", rel := some [("has_part", [0])],
           level := some 0, depth := some 0 }] : List Term).get? 1 = some t') ∧
      t'.rel = some m ∧ e ∈ m ∧ e.1 = "has_part" ∧ 0 ∈ e.2 :=
  c5_relationship_inversion
    [("part_of", { id := "part_of", inverse_of := "has_part" }),
     ("has_part", { id := "has_part" })]
    [{ id := "x", relRaw := some [("part_of", ["y"])] }, { id := "y" }]
    [("x", 0), ("y", 1)]
    [{ id := "x", relRaw := none, rel := some [("part_of", [1])],
       level := some 0, depth := some 0 },
     { id := "y", rel := some [("has_part", [0])],
       level := some 0, depth := some 0 }]
    rfl "part_of" "has_part" { id := "part_of", inverse_of := "has_part" }
    rfl rfl (by decide) 0 (by decide)
    [("part_of", ["y"])] ["y"] "y" (by decide) (by decide)
    1 rfl { id := "x", relRaw := some [("part_of", ["y"])] } rfl rfl

/-! ## Claim C2: level is at most depth -/

theorem foldl_min_le (v : Nat) : ∀ (vs : List Nat), vs.foldl Nat.min v ≤ v := by
  intro vs
  induction vs generalizing v with
  | nil => exact Nat.le_refl v
  | cons x xs ih =>
    simp only [List.foldl_cons]
    exact Nat.le_trans (ih (Nat.min v x)) (Nat.min_le_left v x)

theorem le_foldl_max (v : Nat) : ∀ (vs : List Nat), v ≤ vs.foldl Nat.max v := by
  intro vs
  induction vs generalizing v with
  | nil => exact Nat.le_refl v
  | cons x xs ih =>
    simp only [List.foldl_cons]
    exact Nat.le_trans (Nat.le_max_left v x) (ih (Nat.max v x))

theorem optionMapList_congr {α β : Type} {f g : α → Option β}
    (h : ∀ x y, f x = some y → g x = some y) :
    ∀ (l : List α) (ys : List β), optionMapList f l = some ys →
      optionMapList g l = some ys := by
  intro l
  induction l with
  | nil => intro ys hl; exact hl
  | cons x xs ih =>
    intro ys hl
    unfold optionMapList at hl ⊢
    cases hf : f x with
    | none => rw [hf] at hl; cases hl
    | some y =>
      rw [hf] at hl
      dsimp only at hl
      rw [h x y hf]
      cases hxs : optionMapList f xs with
      | none => rw [hxs] at hl; cases hl
      | some ys0 =>
        rw [hxs] at hl
        cases hl
        rw [ih ys0 hxs]

theorem optionMapList_exists {α β : Type} {f : α → Option β} :
    ∀ (l : List α), (∀ x ∈ l, ∃ y, f x = some y) →
      ∃ ys, optionMapList f l = some ys := by
  intro l
  induction l with
  | nil => intro _; exact ⟨[], rfl⟩
  | cons x xs ih =>
    intro h
    obtain ⟨y, hy⟩ := h x (List.mem_cons_self x xs)
    obtain ⟨ys, hys⟩ := ih (fun z hz => h z (List.mem_cons_of_mem x hz))
    refine ⟨y :: ys, ?_⟩
    unfold optionMapList
    rw [hy, hys]

/-- One extra unit of fuel never changes a defined `levelF` value. -/
theorem levelF_succ (a : List Term) :
    ∀ (fuel i : Nat) (l : Nat), levelF a fuel i = some l →
      levelF a (fuel + 1) i = some l := by
  intro fuel
  induction fuel with
  | zero => intro i l h; cases h
  | succ fuel ih =>
    intro i l h
    unfold levelF at h ⊢
    cases hg : a.get? i with
    | none => rw [hg] at h; cases h
    | some t =>
      rw [hg] at h
      dsimp only at h ⊢
      cases hp : t.parents with
      | nil =>
        rw [hp] at h
        dsimp only at h ⊢
        exact h
      | cons p ps =>
        rw [hp] at h
        dsimp only at h ⊢
        cases h1 : levelF a fuel p with
        | none => rw [h1] at h; cases h
        | some v =>
          rw [h1] at h
          dsimp only at h
          cases h2 : optionMapList (fun q => levelF a fuel q) ps with
          | none => rw [h2] at h; cases h
          | some vs =>
            rw [h2] at h
            rw [ih p v h1]
            rw [optionMapList_congr (fun x y hxy => ih x y hxy) ps vs h2]
            exact h

theorem depthF_succ (a : List Term) :
    ∀ (fuel i : Nat) (l : Nat), depthF a fuel i = some l →
      depthF a (fuel + 1) i = some l := by
  intro fuel
  induction fuel with
  | zero => intro i l h; cases h
  | succ fuel ih =>
    intro i l h
    unfold depthF at h ⊢
    cases hg : a.get? i with
    | none => rw [hg] at h; cases h
    | some t =>
      rw [hg] at h
      dsimp only at h ⊢
      cases hp : t.parents with
      | nil =>
        rw [hp] at h
        dsimp only at h ⊢
        exact h
      | cons p ps =>
        rw [hp] at h
        dsimp only at h ⊢
        cases h1 : depthF a fuel p with
        | none => rw [h1] at h; cases h
        | some v =>
          rw [h1] at h
          dsimp only at h
          cases h2 : optionMapList (fun q => depthF a fuel q) ps with
          | none => rw [h2] at h; cases h
          | some vs =>
            rw [h2] at h
            rw [ih p v h1]
            rw [optionMapList_congr (fun x y hxy => ih x y hxy) ps vs h2]
            exact h

theorem levelF_mono (a : List Term) (fuel fuel' i l : Nat)
    (hle : fuel ≤ fuel') (h : levelF a fuel i = some l) :
    levelF a fuel' i = some l := by
  obtain ⟨d, rfl⟩ := Nat.le.dest hle
  clear hle
  induction d with
  | zero => exact h
  | succ d ih => exact levelF_succ a (fuel + d) i l ih

theorem depthF_mono (a : List Term) (fuel fuel' i l : Nat)
    (hle : fuel ≤ fuel') (h : depthF a fuel i = some l) :
    depthF a fuel' i = some l := by
  obtain ⟨d, rfl⟩ := Nat.le.dest hle
  clear hle
  induction d with
  | zero => exact h
  | succ d ih => exact depthF_succ a (fuel + d) i l ih

/-- At equal fuel, a defined level never exceeds a defined depth. -/
theorem levelF_le_depthF (a : List Term) :
    ∀ (fuel i l d : Nat), levelF a fuel i = some l → depthF a fuel i = some d →
      l ≤ d := by
  intro fuel
  induction fuel with
  | zero => intro i l d h; cases h
  | succ fuel ih =>
    intro i l d hl hd
    unfold levelF at hl
    unfold depthF at hd
    cases hg : a.get? i with
    | none => rw [hg] at hl; cases hl
    | some t =>
      rw [hg] at hl hd
      dsimp only at hl hd
      cases hp : t.parents with
      | nil =>
        rw [hp] at hl hd
        cases hl
        cases hd
        exact Nat.le_refl 0
      | cons p ps =>
        rw [hp] at hl hd
        dsimp only at hl hd
        cases h1 : levelF a fuel p with
        | none => rw [h1] at hl; cases hl
        | some v =>
          rw [h1] at hl
          dsimp only at hl
          cases h2 : optionMapList (fun q => levelF a fuel q) ps with
          | none => rw [h2] at hl; cases hl
          | some vs =>
            rw [h2] at hl
            cases hl
            cases h3 : depthF a fuel p with
            | none => rw [h3] at hd; cases hd
            | some w =>
              rw [h3] at hd
              dsimp only at hd
              cases h4 : optionMapList (fun q => depthF a fuel q) ps with
              | none => rw [h4] at hd; cases hd
              | some ws =>
                rw [h4] at hd
                cases hd
                have hvw : v ≤ w := ih p v w h1 h3
                have h5 := foldl_min_le v vs
                have h6 := le_foldl_max w ws
                omega

/-- With an acyclicity witness (a rank function decreasing along parent
links) and arena-closed parent references, `levelF` converges at fuel
`rank i + 1`. -/
theorem levelF_total (a : List Term) (rank : Nat → Nat)
    (hacyc : ∀ j t, a.get? j = some t → ∀ p ∈ t.parents, rank p < rank j)
    (hclosed : ∀ j t, a.get? j = some t → ∀ p ∈ t.parents, ∃ tp, a.get? p = some tp) :
    ∀ (n i : Nat) (t : Term), rank i ≤ n → a.get? i = some t →
      ∃ l, levelF a (n + 1) i = some l := by
  intro n
  induction n using Nat.strong_induction_on with
  | _ n ih =>
    intro i t hr hg
    unfold levelF
    rw [hg]
    dsimp only
    cases hp : t.parents with
    | nil => exact ⟨0, rfl⟩
    | cons p ps =>
      have hall : ∀ q ∈ t.parents, ∃ v, levelF a n q = some v := by
        intro q hq
        obtain ⟨tq, htq⟩ := hclosed i t hg q hq
        have hrq : rank q < rank i := hacyc i t hg q hq
        cases n with
        | zero => omega
        | succ n0 =>
          obtain ⟨v, hv⟩ := ih n0 (by omega) q tq (by omega) htq
          exact ⟨v, hv⟩
      obtain ⟨v, hv⟩ := hall p (by rw [hp]; exact List.mem_cons_self p ps)
      obtain ⟨vs, hvs⟩ := optionMapList_exists ps
        (fun q hq => hall q (by rw [hp]; exact List.mem_cons_of_mem p hq))
      dsimp only
      rw [hv, hvs]
      exact ⟨vs.foldl Nat.min v + 1, rfl⟩

/-- Depth counterpart of `levelF_total`. -/
theorem depthF_total (a : List Term) (rank : Nat → Nat)
    (hacyc : ∀ j t, a.get? j = some t → ∀ p ∈ t.parents, rank p < rank j)
    (hclosed : ∀ j t, a.get? j = some t → ∀ p ∈ t.parents, ∃ tp, a.get? p = some tp) :
    ∀ (n i : Nat) (t : Term), rank i ≤ n → a.get? i = some t →
      ∃ l, depthF a (n + 1) i = some l := by
  intro n
  induction n using Nat.strong_induction_on with
  | _ n ih =>
    intro i t hr hg
    unfold depthF
    rw [hg]
    dsimp only
    cases hp : t.parents with
    | nil => exact ⟨0, rfl⟩
    | cons p ps =>
      have hall : ∀ q ∈ t.parents, ∃ v, depthF a n q = some v := by
        intro q hq
        obtain ⟨tq, htq⟩ := hclosed i t hg q hq
        have hrq : rank q < rank i := hacyc i t hg q hq
        cases n with
        | zero => omega
        | succ n0 =>
          obtain ⟨v, hv⟩ := ih n0 (by omega) q tq (by omega) htq
          exact ⟨v, hv⟩
      obtain ⟨v, hv⟩ := hall p (by rw [hp]; exact List.mem_cons_self p ps)
      obtain ⟨vs, hvs⟩ := optionMapList_exists ps
        (fun q hq => hall q (by rw [hp]; exact List.mem_cons_of_mem p hq))
      dsimp only
      rw [hv, hvs]
      exact ⟨vs.foldl Nat.max v + 1, rfl⟩

/-- C2: on an acyclic resolved graph (witnessed by a rank function
decreasing along parent links, with parent references staying inside the
arena), every record's computed level — 1 + the minimum of its parents'
levels, 0 at a parentless root — and computed depth — 1 + the maximum of
its parents' depths, 0 at a root — are both defined, and the level never
exceeds the depth. -/
theorem c2_level_le_depth (a : List Term) (rank : Nat → Nat)
    (hacyc : ∀ j t, a.get? j = some t → ∀ p ∈ t.parents, rank p < rank j)
    (hclosed : ∀ j t, a.get? j = some t → ∀ p ∈ t.parents, ∃ tp, a.get? p = some tp)
    (i : Nat) (t : Term) (hi : a.get? i = some t) :
    ∃ l d, levelF a (rank i + 1) i = some l ∧ depthF a (rank i + 1) i = some d ∧
      l ≤ d := by
  obtain ⟨l, hl⟩ := levelF_total a rank hacyc hclosed (rank i) i t (Nat.le_refl _) hi
  obtain ⟨d, hd⟩ := depthF_total a rank hacyc hclosed (rank i) i t (Nat.le_refl _) hi
  exact ⟨l, d, hl, hd, levelF_le_depthF a (rank i + 1) i l d hl hd⟩

/-- Witness for C2 at a two-record chain with the identity rank function. -/
theorem c2_level_le_depth_witness :
    ∃ l d,
      levelF [{ id := "r" }, { id := "c", parents := [0] }] 2 1 = some l ∧
      depthF [{ id := "r" }, { id := "c", parents := [0] }] 2 1 = some d ∧
      l ≤ d :=
  c2_level_le_depth [{ id := "r" }, { id := "c", parents := [0] }] (fun i => i)
    (by
      intro j t hj p hp
      match j, hj with
      | 0, hj =>
        cases hj
        simp at hp
      | 1, hj =>
        cases hj
        simp at hp
        subst hp
        decide
      | n + 2, hj => cases hj)
    (by
      intro j t hj p hp
      match j, hj with
      | 0, hj =>
        cases hj
        simp at hp
      | 1, hj =>
        cases hj
        simp at hp
        subst hp
        exact ⟨{ id := "r" }, rfl⟩
      | n + 2, hj => cases hj)
    1 { id := "c", parents := [0] } rfl

/-! ## C7: `paths_to_top` enumerates the rooted paths

A rooted path to arena index `i` in the spec's sense: a non-empty sequence
of indices, ordered root-first, starting at a record whose `level` is 0 and
stepping along parent edges down to `i`. -/

/-- Root-first directed paths from a level-0 record to `i`, following
parent edges. -/
inductive RootedPath (a : List Term) : List Nat → Nat → Prop where
  | root {i : Nat} {t : Term} (hg : a.get? i = some t)
      (hlv : t.level = some 0) : RootedPath a [i] i
  | step {i : Nat} {t : Term} {p : Nat} {l : List Nat}
      (hg : a.get? i = some t) (hp : p ∈ t.parents)
      (hl : RootedPath a l p) : RootedPath a (l ++ [i]) i

theorem exceptMapList_mem_out {α β ε : Type} (f : α → Except ε β) :
    ∀ (xs : List α) (ys : List β), exceptMapList f xs = .ok ys →
      ∀ y ∈ ys, ∃ x ∈ xs, f x = .ok y := by
  intro xs
  induction xs with
  | nil =>
    intro ys h y hy
    cases h
    cases hy
  | cons x xs ih =>
    intro ys h y hy
    unfold exceptMapList at h
    cases hfx : f x with
    | error e => rw [hfx] at h; exact Except.noConfusion h
    | ok b =>
      rw [hfx] at h
      dsimp only at h
      cases hrest : exceptMapList f xs with
      | error e => rw [hrest] at h; exact Except.noConfusion h
      | ok bs =>
        rw [hrest] at h
        dsimp only at h
        cases h
        rcases List.mem_cons.mp hy with hyb | hybs
        · exact ⟨x, List.mem_cons_self x xs, by rw [hyb]; exact hfx⟩
        · obtain ⟨x2, hx2, hfx2⟩ := ih bs hrest y hybs
          exact ⟨x2, List.mem_cons_of_mem x hx2, hfx2⟩

theorem exceptMapList_mem_in {α β ε : Type} (f : α → Except ε β) :
    ∀ (xs : List α) (ys : List β), exceptMapList f xs = .ok ys →
      ∀ x ∈ xs, ∃ y ∈ ys, f x = .ok y := by
  intro xs
  induction xs with
  | nil =>
    intro ys h x hx
    cases hx
  | cons x xs ih =>
    intro ys h x0 hx0
    unfold exceptMapList at h
    cases hfx : f x with
    | error e => rw [hfx] at h; exact Except.noConfusion h
    | ok b =>
      rw [hfx] at h
      dsimp only at h
      cases hrest : exceptMapList f xs with
      | error e => rw [hrest] at h; exact Except.noConfusion h
      | ok bs =>
        rw [hrest] at h
        dsimp only at h
        cases h
        rcases List.mem_cons.mp hx0 with hxx | hxs
        · exact ⟨b, List.mem_cons_self b bs, by rw [hxx]; exact hfx⟩
        · obtain ⟨y, hy, hfy⟩ := ih bs hrest x0 hxs
          exact ⟨y, List.mem_cons_of_mem b hy, hfy⟩

/-- Soundness: every list produced by `pathsToTopRec` is a rooted path. -/
theorem pathsToTopRec_sound (a : List Term) :
    ∀ (fuel i : Nat) (ps : List (List Nat)),
      pathsToTopRec fuel a i = .ok ps → ∀ l ∈ ps, RootedPath a l i := by
  intro fuel
  induction fuel with
  | zero =>
    intro i ps h
    exact Except.noConfusion h
  | succ fuel ih =>
    intro i ps h l hl
    unfold pathsToTopRec at h
    cases hg : a.get? i with
    | none => rw [hg] at h; exact Except.noConfusion h
    | some t =>
      rw [hg] at h
      dsimp only at h
      by_cases hlv : t.level = some 0
      · rw [if_pos hlv] at h
        cases h
        simp only [List.mem_singleton] at hl
        subst hl
        exact RootedPath.root hg hlv
      · rw [if_neg hlv] at h
        cases hm : exceptMapList (fun p => pathsToTopRec fuel a p) t.parents with
        | error e => rw [hm] at h; exact Except.noConfusion h
        | ok pss =>
          rw [hm] at h
          dsimp only at h
          cases h
          rw [List.mem_flatten] at hl
          obtain ⟨m, hm1, hm2⟩ := hl
          rw [List.mem_map] at hm1
          obtain ⟨qs, hqs, hqeq⟩ := hm1
          subst hqeq
          rw [List.mem_map] at hm2
          obtain ⟨tp, htp, hteq⟩ := hm2
          subst hteq
          obtain ⟨p, hp, hrec⟩ := exceptMapList_mem_out _ _ _ hm qs hqs
          exact RootedPath.step hg hp (ih p qs hrec tp htp)

/-- Completeness: under level/parents coherence, every rooted path to `i`
is in any successful `pathsToTopRec` output for `i`. -/
theorem pathsToTopRec_complete (a : List Term)
    (hcoh : ∀ j t, a.get? j = some t → (t.level = some 0 ↔ t.parents = [])) :
    ∀ (l : List Nat) (i : Nat), RootedPath a l i →
      ∀ (fuel : Nat) (ps : List (List Nat)),
        pathsToTopRec fuel a i = .ok ps → l ∈ ps := by
  intro l i hR
  induction hR with
  | root hg hlv =>
    intro fuel ps h
    match fuel with
    | 0 => exact Except.noConfusion h
    | fuel + 1 =>
      unfold pathsToTopRec at h
      rw [hg] at h
      dsimp only at h
      rw [if_pos hlv] at h
      cases h
      exact List.mem_singleton.mpr rfl
  | step hg hp hsub ih =>
    rename_i i1 t1 p1 l1
    intro fuel ps h
    match fuel with
    | 0 => exact Except.noConfusion h
    | fuel + 1 =>
      unfold pathsToTopRec at h
      rw [hg] at h
      dsimp only at h
      have hne : ¬ t1.level = some 0 := by
        intro hlv
        have hnil := (hcoh _ _ hg).mp hlv
        rw [hnil] at hp
        cases hp
      rw [if_neg hne] at h
      cases hm : exceptMapList (fun p => pathsToTopRec fuel a p) _ with
      | error e => rw [hm] at h; exact Except.noConfusion h
      | ok pss =>
        rw [hm] at h
        dsimp only at h
        cases h
        obtain ⟨qs, hqs, hrec⟩ := exceptMapList_mem_in _ _ _ hm _ hp
        have hmem := ih fuel qs hrec
        rw [List.mem_flatten]
        exact ⟨_, List.mem_map_of_mem _ hqs, List.mem_map_of_mem _ hmem⟩

theorem head?_append_of_some {α : Type} {l : List α} {r : α}
    (h : l.head? = some r) (m : List α) : (l ++ m).head? = some r := by
  cases l with
  | nil => cases h
  | cons x xs => cases h; rfl

/-- A rooted path ends at its target index. -/
theorem rootedPath_getLast (a : List Term) :
    ∀ (l : List Nat) (i : Nat), RootedPath a l i → l.getLast? = some i := by
  intro l i h
  induction h with
  | root hg hlv => rfl
  | step hg hp hsub ih => exact List.getLast?_concat _

/-- A rooted path starts at a record whose level is 0. -/
theorem rootedPath_head (a : List Term) :
    ∀ (l : List Nat) (i : Nat), RootedPath a l i →
      ∃ r tr, l.head? = some r ∧ a.get? r = some tr ∧ tr.level = some 0 := by
  intro l i h
  induction h with
  | root hg hlv => exact ⟨_, _, rfl, hg, hlv⟩
  | step hg hp hsub ih =>
    obtain ⟨r, tr, h1, h2, h3⟩ := ih
    exact ⟨r, tr, head?_append_of_some h1 _, h2, h3⟩

/-- C7: when the identifier resolves and the recursion succeeds,
`paths_to_top` returns exactly the rooted paths: every output list is a
directed path from a level-0 root to the given record (root-first,
inclusive of the record), and every such path is output.  The coherence
hypothesis says a record has level 0 exactly when it has no parents. -/
theorem c7_paths_to_top_enumerates_rooted_paths (a : List Term)
    (dict : List (String × Nat)) (fuel : Nat) (term : String) (i : Nat)
    (ps : List (List Nat))
    (hcoh : ∀ j t, a.get? j = some t → (t.level = some 0 ↔ t.parents = []))
    (hfind : assocFind dict term = some i)
    (hok : pathsToTopRec fuel a i = .ok ps) :
    paths_to_top a dict fuel term = some (Except.ok ps) ∧
    (∀ l, l ∈ ps ↔ RootedPath a l i) ∧
    (∀ l ∈ ps, l.getLast? = some i ∧
      ∃ r tr, l.head? = some r ∧ a.get? r = some tr ∧ tr.level = some 0) := by
  refine ⟨?_, ?_, ?_⟩
  · unfold paths_to_top
    rw [hfind]
    dsimp only
    rw [hok]
  · intro l
    constructor
    · exact fun hl => pathsToTopRec_sound a fuel i ps hok l hl
    · exact fun hR => pathsToTopRec_complete a hcoh l i hR fuel ps hok
  · intro l hl
    have hR := pathsToTopRec_sound a fuel i ps hok l hl
    exact ⟨rootedPath_getLast a l i hR, rootedPath_head a l i hR⟩

/-- Witness for C7 at a diamond: a root, two intermediates, and a record
with both intermediates as parents; exactly the two distinct root-first
paths come out. -/
theorem c7_paths_to_top_enumerates_rooted_paths_witness :
    paths_to_top
      [{ id := "GO:0", level := some 0 },
       { id := "GO:1", parents := [0], level := some 1 },
       { id := "GO:2", parents := [0], level := some 1 },
       { id := "GO:3", parents := [1, 2], level := some 2 }]
      [("GO:0", 0), ("GO:1", 1), ("GO:2", 2), ("GO:3", 3)] 4 "GO:3"
      = some (Except.ok [[0, 1, 3], [0, 2, 3]]) ∧
    RootedPath
      [{ id := "GO:0", level := some 0 },
       { id := "GO:1", parents := [0], level := some 1 },
       { id := "GO:2", parents := [0], level := some 1 },
       { id := "GO:3", parents := [1, 2], level := some 2 }] [0, 1, 3] 3 ∧
    RootedPath
      [{ id := "GO:0", level := some 0 },
       { id := "GO:1", parents := [0], level := some 1 },
       { id := "GO:2", parents := [0], level := some 1 },
       { id := "GO:3", parents := [1, 2], level := some 2 }] [0, 2, 3] 3 ∧
    ([0, 1, 3] : List Nat) ≠ [0, 2, 3] := by
  have h := c7_paths_to_top_enumerates_rooted_paths
    [{ id := "GO:0", level := some 0 },
     { id := "GO:1", parents := [0], level := some 1 },
     { id := "GO:2", parents := [0], level := some 1 },
     { id := "GO:3", parents := [1, 2], level := some 2 }]
    [("GO:0", 0), ("GO:1", 1), ("GO:2", 2), ("GO:3", 3)] 4 "GO:3" 3
    [[0, 1, 3], [0, 2, 3]]
    (by
      intro j t hj
      match j, hj with
      | 0, hj => cases hj; simp
      | 1, hj => cases hj; simp
      | 2, hj => cases hj; simp
      | 3, hj => cases hj; simp
      | n + 4, hj => cases hj)
    rfl rfl
  exact ⟨h.1, (h.2.1 [0, 1, 3]).mp (by simp), (h.2.1 [0, 2, 3]).mp (by simp),
    by decide⟩

end Goatools
